import Mathlib

/-!
# FileLoader (node-dependency-injection): a shallow embedding

The definitions below embed `lib/Loader/FileLoader.js`.  JavaScript strings are
lists of characters (one list element per string index), every method of the
loader is a function in the monad `LoaderM`, which threads the loader's mutable
state (the container tables and `filePath`), may fail with a thrown error, and
records every call to an outside collaborator in a trace.
-/

set_option autoImplicit false

namespace FileLoader

/-! ## JavaScript strings and values -/

/-- A JavaScript string, one element per index position (strings of characters of the
Basic Multilingual Plane, where a character is one UTF-16 code unit). -/
abbrev Str := List Char

/-- Index normalisation shared by `String.prototype.slice` and `Array.prototype.slice`:
a negative index counts from the end, and the result is clamped to `[0, len]`. -/
def sliceIndex (len : Nat) (i : Int) : Nat :=
  if i < 0 then (len + i).toNat else min i.toNat len

/-- The call `xs.slice(start)`. -/
def slice1 {α : Type} (xs : List α) (start : Int) : List α :=
  xs.drop (sliceIndex xs.length start)

/-- The call `xs.slice(start, stop)`. -/
def slice2 {α : Type} (xs : List α) (start stop : Int) : List α :=
  (xs.drop (sliceIndex xs.length start)).take
    (sliceIndex xs.length stop - sliceIndex xs.length start)

/-- The call `s.substr(start)` for a non-negative `start`. -/
def substr1 (s : Str) (start : Nat) : Str := s.drop start

/-- The call `s.substr(start, length)` for a non-negative `start`. -/
def substr2 (s : Str) (start length : Nat) : Str := (s.drop start).take length

/-- The call `s.includes(c, 0)` for a one-character search string `c`. -/
def includes (s : Str) (c : Char) : Bool := s.contains c

/-- The JavaScript values that occur in raw documents and in module export tables.
`obj` is a reference to a plain object, class or function (it has no `slice` method). -/
inductive JSVal where
  | undefined
  | null
  | bool (b : Bool)
  | num (n : Int)
  | str (s : Str)
  | obj (ref : Nat)
  deriving DecidableEq, Repr

/-- JavaScript truthiness. -/
def JSVal.truthy : JSVal → Bool
  | .undefined => false
  | .null => false
  | .bool b => b
  | .num n => n != 0
  | .str s => !s.isEmpty
  | .obj _ => true

/-- The expression `a || b`. -/
def JSVal.or (a b : JSVal) : JSVal := if a.truthy then a else b

/-- The own property `key` of an object given by its own entries (`undefined` when there
is none).  The loader reads document objects only under their own keys (`for ... in`,
`Object.keys`); reads on a module object go through `ModuleObject.get`. -/
def getProp (o : List (Str × JSVal)) (key : Str) : JSVal :=
  match o.find? (fun e => e.1 == key) with
  | some e => e.2
  | none => .undefined

/-- A module object as `require` returns it: its own exports, and the members it inherits
from its prototype chain (`undefined` for a name the chain does not have). -/
structure ModuleObject where
  own : List (Str × JSVal)
  inherited : Str → JSVal

/-- Property access `exportedModule[key]`: an own export if there is one of that name,
the inherited member otherwise. -/
def ModuleObject.get (m : ModuleObject) (key : Str) : JSVal :=
  match m.own.find? (fun e => e.1 == key) with
  | some e => e.2
  | none => m.inherited key

/-- The names of the members of `Object.prototype`. -/
def objectPrototypeNames : List Str :=
  ["constructor".toList, "toString".toList, "toLocaleString".toList, "valueOf".toList,
    "hasOwnProperty".toList, "isPrototypeOf".toList, "propertyIsEnumerable".toList,
    "__proto__".toList, "__defineGetter__".toList, "__defineSetter__".toList,
    "__lookupGetter__".toList, "__lookupSetter__".toList]

/-- What a plain object inherits: `Object.prototype[key]`, a built-in function or object
for each of the names above (numbered from 1000) and `undefined` for every other name. -/
def objectPrototype (key : Str) : JSVal :=
  if objectPrototypeNames.indexOf key < objectPrototypeNames.length then
    .obj (1000 + objectPrototypeNames.indexOf key)
  else .undefined

/-- The plain object `{...own}`. -/
def plainModule (own : List (Str × JSVal)) : ModuleObject := ⟨own, objectPrototype⟩

/-! ## Collaborator classes (`Reference`, `PackageReference`, `TagReference`, `Definition`) -/

/-- Modelled from the spec: the `Reference` class is not part of the loader's file; a
service reference is a target name and an optional flag. -/
structure Reference where
  id : Str
  nullable : Bool
  deriving DecidableEq, Repr

/-- Modelled from the spec: `new Reference(id)` with the second constructor argument left
out builds a required (non-optional) reference. -/
def Reference.new1 (id : Str) : Reference := ⟨id, false⟩

/-- The call `new Reference(id, nullable)`. -/
def Reference.new2 (id : Str) (nullable : Bool) : Reference := ⟨id, nullable⟩

/-- What `_parseArgument` returns. -/
inductive Argument where
  /-- a boolean handed back unchanged -/
  | bool (b : Bool)
  /-- the original string handed back unchanged -/
  | str (s : Str)
  /-- a `Reference` object -/
  | reference (r : Reference)
  /-- a `PackageReference` object (the deferred parameter handle) -/
  | packageReference (id : Str)
  /-- a `TagReference` object -/
  | tagReference (name : Str)
  /-- a value read from the parameter store or from the process environment -/
  | value (v : JSVal)
  deriving DecidableEq, Repr

/-- The object handed to `Definition.setFactory`. -/
inductive FactoryObject where
  | reference (r : Reference)
  | cls (v : JSVal)
  deriving DecidableEq, Repr

/-- Modelled from the spec: the `Definition` class is not part of the loader's file; the
fields are those the loader assigns. -/
structure Definition where
  Object : JSVal
  factory : Option (FactoryObject × JSVal)
  args : List Argument
  appendArgs : List Argument
  properties : List (Str × Argument)
  calls : List (JSVal × List Argument)
  tags : List (JSVal × List (Str × JSVal))
  lazy : JSVal
  «public» : JSVal
  «abstract» : JSVal
  parent : JSVal
  decoratedService : JSVal
  decorationPriority : JSVal
  deprecated : JSVal
  shared : JSVal
  synthetic : JSVal
  deriving DecidableEq, Repr

/-- Modelled from the spec: `new Definition(object)`; a fresh definition has no factory,
empty argument lists, no properties, calls or tags, is shared and public, and is neither
lazy, abstract nor synthetic. -/
def Definition.new (object : JSVal) : Definition where
  Object := object
  factory := none
  args := []
  appendArgs := []
  properties := []
  calls := []
  tags := []
  lazy := .bool false
  «public» := .bool true
  «abstract» := .bool false
  parent := .null
  decoratedService := .null
  decorationPriority := .null
  deprecated := .null
  shared := .bool true
  synthetic := .bool false

/-- The call `definition.setFactory(object, method)`. -/
def Definition.setFactory (d : Definition) (object : FactoryObject) (method : JSVal) :
    Definition :=
  { d with factory := some (object, method) }

/-- The call `definition.addProperty(key, value)`. -/
def Definition.addProperty (d : Definition) (key : Str) (value : Argument) : Definition :=
  { d with properties := d.properties ++ [(key, value)] }

/-- The call `definition.addMethodCall(method, args)`. -/
def Definition.addMethodCall (d : Definition) (method : JSVal) (args : List Argument) :
    Definition :=
  { d with calls := d.calls ++ [(method, args)] }

/-- The call `definition.addTag(name, attributes)`. -/
def Definition.addTag (d : Definition) (name : JSVal) (attributes : List (Str × JSVal)) :
    Definition :=
  { d with tags := d.tags ++ [(name, attributes)] }

/-! ## Raw documents -/

/-- The `factory` entry of a service record: `{class, method}`. -/
structure FactorySpec where
  «class» : Option Str
  method : JSVal
  deriving DecidableEq, Repr

/-- One entry of `calls`: `{method, arguments}` (`none` is an absent key). -/
structure CallSpec where
  method : JSVal
  arguments : Option (List JSVal)
  deriving DecidableEq, Repr

/-- One entry of `tags`: `{name, attributes}` (`none` is an absent or falsy `attributes`). -/
structure TagSpec where
  name : JSVal
  attributes : Option (List (Str × JSVal))
  deriving DecidableEq, Repr

/-- A service record.  `none` stands for an absent (`undefined`) key. -/
structure ServiceRecord where
  «class» : Option Str
  main : Option Str
  factory : Option FactorySpec
  arguments : Option (List JSVal)
  properties : Option (List (Str × JSVal))
  calls : Option (List CallSpec)
  tags : Option (List TagSpec)
  shared : JSVal
  lazy : JSVal
  «public» : JSVal
  «abstract» : JSVal
  parent : JSVal
  decorates : JSVal
  decoration_priority : JSVal
  deprecated : JSVal
  synthetic : JSVal
  deriving DecidableEq, Repr

/-- A raw service value: a plain string or a service record. -/
inductive RawService where
  | str (s : Str)
  | record (r : ServiceRecord)
  deriving DecidableEq, Repr

/-! ## Loader state, collaborators and the loader monad -/

/-- Errors thrown while compiling. -/
inductive Err where
  /-- a `TypeError` raised by the JavaScript runtime -/
  | typeError
  /-- `getParameter` on an unset parameter -/
  | parameterNotFound (key : Str)
  /-- `require.resolve` or `require` found nothing -/
  | moduleNotFound (request : Str)
  /-- any failure of the recursive `load` -/
  | loadFailed
  deriving DecidableEq, Repr

/-- Modelled from the spec: the container (`ContainerBuilder`, not part of the loader's
file) owns a parameter store, an alias table and a definition table, and an optional
default directory.  Each table lists its writes in order; the last write for a name is
the current one. -/
structure Container where
  parameters : List (Str × JSVal)
  aliases : List (Str × Str)
  definitions : List (Str × Definition)
  defaultDir : Option Str
  deriving DecidableEq, Repr

/-- The mutable state of a loader: its container and `filePath`. -/
structure LoaderState where
  container : Container
  filePath : Str
  deriving DecidableEq, Repr

/-- A call to a collaborator outside the loader. -/
inductive Effect where
  | getParameter (key : Str)
  | env (name : Str)
  | existsSync (p : Str)
  | resolvePaths (request : Str)
  | resolve (request : Str) (paths : List Str)
  | require (p : Str)
  | load (p : Str)
  deriving DecidableEq, Repr

/-- The read-only collaborators: the process environment, the file system, the module
system and the `path` module. -/
structure World where
  /-- the value of `process.env[name]` -/
  env : Str → Option Str
  /-- the call `fs.existsSync(p)` -/
  existsSync : Str → Bool
  /-- the call `require.resolve.paths(request)` (`none` is `null`) -/
  resolvePaths : Str → Option (List Str)
  /-- the call `require.resolve(request, {paths})` -/
  resolve : Str → List Str → Except Err Str
  /-- the call `require(p)`, giving the module object -/
  require : Str → Except Err ModuleObject
  /-- the constant `path.sep` -/
  sep : Char
  /-- the call `path.isAbsolute(p)` -/
  isAbsolute : Str → Bool
  /-- the call `path.join(...parts)` -/
  join : List Str → Str
  /-- the call `path.dirname(p)` -/
  dirname : Str → Str
  /-- the call `path.basename(p)` -/
  basename : Str → Str

/-- What running a loader method gives: its result or the error thrown, the state left
behind, and the collaborator calls made, in order. -/
structure Outcome (α : Type) where
  result : Except Err α
  state : LoaderState
  trace : List Effect

deriving instance DecidableEq for Except

deriving instance DecidableEq for Outcome

/-- A loader method: a function of the loader state. -/
def LoaderM (α : Type) : Type := LoaderState → Outcome α

/-- Return a value without touching the state. -/
def LoaderM.pure {α : Type} (a : α) : LoaderM α := fun s => ⟨.ok a, s, []⟩

/-- Throw an error. -/
def LoaderM.throw {α : Type} (e : Err) : LoaderM α := fun s => ⟨.error e, s, []⟩

/-- Sequencing: a thrown error skips the rest and keeps the state reached so far. -/
def LoaderM.bind {α β : Type} (m : LoaderM α) (f : α → LoaderM β) : LoaderM β := fun s =>
  match m s with
  | ⟨.ok a, s1, t1⟩ =>
    match f a s1 with
    | ⟨r, s2, t2⟩ => ⟨r, s2, t1 ++ t2⟩
  | ⟨.error e, s1, t1⟩ => ⟨.error e, s1, t1⟩

instance : Monad LoaderM where
  pure := LoaderM.pure
  bind := LoaderM.bind

/-- Record one collaborator call. -/
def emit (e : Effect) : LoaderM Unit := fun s => ⟨.ok (), s, [e]⟩

/-- Read the loader state. -/
def getState : LoaderM LoaderState := fun s => ⟨.ok s, s, []⟩

/-- The setter `this.filePath = value`. -/
def setFilePath (value : Str) : LoaderM Unit := fun s => ⟨.ok (), { s with filePath := value }, []⟩

/-- Lift the result of a collaborator call. -/
def liftExcept {α : Type} : Except Err α → LoaderM α
  | .ok a => LoaderM.pure a
  | .error e => LoaderM.throw e

/-- Modelled from the spec: `container.getParameter(name)` gives the current value of the
parameter, or fails when it is unset. -/
def Container.getParameter (c : Container) (name : Str) : Except Err JSVal :=
  match c.parameters.reverse.find? (fun e => e.1 == name) with
  | some e => .ok e.2
  | none => .error (.parameterNotFound name)

/-- Modelled from the spec: `container.setParameter(name, value)`. -/
def Container.setParameter (c : Container) (name : Str) (value : JSVal) : Container :=
  { c with parameters := c.parameters ++ [(name, value)] }

/-- Modelled from the spec: `container.setAlias(name, target)`. -/
def Container.setAlias (c : Container) (name target : Str) : Container :=
  { c with aliases := c.aliases ++ [(name, target)] }

/-- Modelled from the spec: `container.setDefinition(name, definition)`. -/
def Container.setDefinition (c : Container) (name : Str) (d : Definition) : Container :=
  { c with definitions := c.definitions ++ [(name, d)] }

/-- The call `this._container.getParameter(name)`. -/
def getParameter (name : Str) : LoaderM JSVal := do
  emit (.getParameter name)
  let s ← getState
  liftExcept (s.container.getParameter name)

/-- The lookup `process.env[name]`. -/
def readEnv (w : World) (name : Str) : LoaderM JSVal := do
  emit (.env name)
  match w.env name with
  | some v => pure (.str v)
  | none => pure .undefined

/-! ## The value parser -/

/-- The method `_getArgumentParameter(argument)`. -/
def _getArgumentParameter (w : World) (argument : Str) : LoaderM Argument :=
  if slice2 argument 1 4 = ['e', 'n', 'v'] then do
    let v ← readEnv w (slice2 argument 5 (-2))
    pure (.value v)
  else do
    let v ← getParameter (slice2 argument 1 (-1))
    pure (.value v)

/-- The method `_parseArgument(argument)`.  A value that is neither a boolean nor a string
has no `slice` method, so the first sigil test throws. -/
def _parseArgument (w : World) (argument : JSVal) : LoaderM Argument :=
  match argument with
  | .bool b => pure (.bool b)
  | .str s =>
    if slice2 s 0 2 = ['@', '?'] then
      pure (.reference (Reference.new2 (slice1 s 2) true))
    else if slice2 s 0 1 = ['@'] then
      pure (.reference (Reference.new1 (slice1 s 1)))
    else if slice2 s 0 1 = ['%'] ∧ slice1 s (-1) = ['%'] then
      _getArgumentParameter w s
    else if slice2 s 0 1 = ['%'] then
      pure (.packageReference (slice1 s 1))
    else if slice2 s 0 7 = ['!', 't', 'a', 'g', 'g', 'e', 'd'] then
      pure (.tagReference (slice1 s 8))
    else
      pure (.str s)
  | _ => LoaderM.throw .typeError

/-- The method `_getParsedArguments(args)`: every element is parsed in order and pushed;
`none` is an absent argument, replaced by the default `[]`. -/
def _getParsedArguments (w : World) (args : Option (List JSVal)) : LoaderM (List Argument) :=
  (args.getD []).foldlM (fun parsedArguments argument => do
    let a ← _parseArgument w argument
    pure (parsedArguments ++ [a])) []

/-! ## The module path resolver and the class exporter lookup -/

/-- The expression `[...new Set(paths)]`: first occurrences, in insertion order. -/
def uniq (paths : List Str) : List Str :=
  paths.foldl (fun acc p => if p ∈ acc then acc else acc ++ [p]) []

/-- The method `_collectPossiblePaths(dir)`. -/
def _collectPossiblePaths (w : World) (dir : Str) : List Str :=
  let dirs := dir.splitOn w.sep
  [dir] ++ (List.range dirs.length).reverse.map (fun (k : Nat) =>
    '/' :: w.join (slice2 dirs 0 (k + 1) ++ [['n', 'o', 'd', 'e', '_', 'm', 'o', 'd', 'u', 'l', 'e', 's']]))

/-- The legacy specifier start `../node_modules/` (16 characters). -/
def legacyStart : Str :=
  ['.', '.', '/', 'n', 'o', 'd', 'e', '_', 'm', 'o', 'd', 'u', 'l', 'e', 's', '/']

/-- The expression `this.container.defaultDir || path.dirname(this.filePath)`. -/
def fromDirectory (w : World) (s : LoaderState) : Str :=
  match s.container.defaultDir with
  | some d => if d.isEmpty then w.dirname s.filePath else d
  | none => w.dirname s.filePath

/-- The call `fs.existsSync(p)`. -/
def existsSync (w : World) (p : Str) : LoaderM Bool := do
  emit (.existsSync p)
  pure (w.existsSync p)

/-- The expression `fs.existsSync(p) || fs.existsSync(q)`: the second check is made only
when the first one fails. -/
def existsEither (w : World) (p q : Str) : LoaderM Bool :=
  existsSync w p >>= fun first => if first then pure true else existsSync w q

/-- The method `_tryToGuessClassPath(classObject)`. -/
def _tryToGuessClassPath (w : World) (classObject : Str) : LoaderM Str :=
  if w.isAbsolute classObject then pure classObject
  else do
    let classObject :=
      if substr2 classObject 0 16 = legacyStart then substr1 classObject 16 else classObject
    let isRelativePath : Bool := classObject.head? = some '.'
    let s ← getState
    let fromDir := fromDirectory w s
    let found ← existsEither w (w.join [fromDir, classObject] ++ ['.', 'j', 's'])
      (w.join [fromDir, classObject])
    if found then pure (w.join [fromDir, classObject])
    else do
      let dir := if isRelativePath then w.join [fromDir, w.dirname classObject] else fromDir
      let paths := _collectPossiblePaths w dir
      if isRelativePath then do
        let classObject := w.join [fromDir, classObject]
        emit (.resolve classObject paths)
        liftExcept (w.resolve classObject paths)
      else do
        emit (.resolvePaths classObject)
        let paths := uniq (paths ++ (w.resolvePaths classObject).getD [])
        emit (.resolve classObject paths)
        liftExcept (w.resolve classObject paths)

/-- The method `_requireClassNameFromPath(classObject, mainClassName)`.  An absent
`classObject` makes `path.isAbsolute` throw; an absent `mainClassName` is used as the
property key `undefined`. -/
def _requireClassNameFromPath (w : World) (classObject : Option Str)
    (mainClassName : Option Str) : LoaderM JSVal :=
  match classObject with
  | none => LoaderM.throw .typeError
  | some classObject => do
    let classPath ← _tryToGuessClassPath w classObject
    emit (.require classPath)
    let exportedModule ← liftExcept (w.require classPath)
    let mainClass :=
      exportedModule.get (mainClassName.getD ['u', 'n', 'd', 'e', 'f', 'i', 'n', 'e', 'd'])
    let defaultClass := exportedModule.get ['d', 'e', 'f', 'a', 'u', 'l', 't']
    let fileNameClass := exportedModule.get (w.basename classObject)
    pure ((mainClass.or defaultClass).or fileNameClass)

/-! ## The definition compiler -/

/-- The method `_getFactoryDefinition(service)`, for a record whose `factory` entry is
`factory`.  An absent `factory.class` makes `includes` throw. -/
def _getFactoryDefinition (w : World) (service : ServiceRecord) (factory : FactorySpec) :
    LoaderM Definition :=
  match factory.class with
  | none => LoaderM.throw .typeError
  | some cls => do
    let object ←
      if includes cls '@' then
        pure (FactoryObject.reference (Reference.new1 (slice1 cls 1)))
      else do
        let c ← _requireClassNameFromPath w (some cls) none
        pure (FactoryObject.cls c)
    let definition := Definition.new .undefined
    let definition := { definition with shared := service.shared }
    let definition := definition.setFactory object factory.method
    let args ← _getParsedArguments w service.arguments
    pure { definition with args := args }

/-- The method `_parseArguments(definition, args)`. -/
def _parseArguments (w : World) (definition : Definition) (args : Option (List JSVal)) :
    LoaderM Definition := do
  let parsed ← _getParsedArguments w args
  if definition.abstract.truthy then pure { definition with appendArgs := parsed }
  else pure { definition with args := parsed }

/-- The method `_parseProperties(definition, properties)`. -/
def _parseProperties (w : World) (definition : Definition)
    (properties : Option (List (Str × JSVal))) : LoaderM Definition :=
  ((properties.getD []).map Prod.fst).foldlM (fun d propertyKey => do
    let a ← _parseArgument w (getProp (properties.getD []) propertyKey)
    pure (d.addProperty propertyKey a)) definition

/-- The method `_parseCalls(definition, calls)`. -/
def _parseCalls (w : World) (definition : Definition) (calls : Option (List CallSpec)) :
    LoaderM Definition :=
  (calls.getD []).foldlM (fun d call => do
    let args ← _getParsedArguments w call.arguments
    pure (d.addMethodCall call.method args)) definition

/-- The call `map.set(key, value)` on a `Map` listed in insertion order. -/
def mapSet (m : List (Str × JSVal)) (key : Str) (value : JSVal) : List (Str × JSVal) :=
  if m.any (fun e => e.1 == key) then m.map (fun e => if e.1 == key then (key, value) else e)
  else m ++ [(key, value)]

/-- The static method `_parseTagAttributes(attributes)`. -/
def _parseTagAttributes (attributes : Option (List (Str × JSVal))) : List (Str × JSVal) :=
  match attributes with
  | none => []
  | some a => (a.map Prod.fst).foldl (fun m key => mapSet m key (getProp a key)) []

/-- The method `_parseTags(definition, tags)`. -/
def _parseTags (definition : Definition) (tags : Option (List TagSpec)) : Definition :=
  (tags.getD []).foldl (fun d tag => d.addTag tag.name (_parseTagAttributes tag.attributes))
    definition

/-- The method `_getDefinition(service)`. -/
def _getDefinition (w : World) (service : ServiceRecord) : LoaderM Definition :=
  if !service.synthetic.truthy then do
    let object ← _requireClassNameFromPath w service.class service.main
    let definition := Definition.new object
    let definition := { definition with
      lazy := service.lazy.or (.bool false)
      «public» := .bool (decide (service.public ≠ .bool false))
      «abstract» := service.abstract.or (.bool false)
      parent := service.parent
      decoratedService := service.decorates
      decorationPriority := service.decoration_priority
      deprecated := service.deprecated
      shared := service.shared }
    let definition ← _parseArguments w definition service.arguments
    let definition ← _parseProperties w definition service.properties
    let definition ← _parseCalls w definition service.calls
    pure (_parseTags definition service.tags)
  else
    let definition := Definition.new .undefined
    pure { definition with synthetic := .bool true }

/-! ## The document compiler -/

/-- The call `this.container.setAlias(id, target)`. -/
def setAlias (id target : Str) : LoaderM Unit := fun s =>
  ⟨.ok (), { s with container := s.container.setAlias id target }, []⟩

/-- The call `this.container.setDefinition(id, definition)`. -/
def setDefinition (id : Str) (d : Definition) : LoaderM Unit := fun s =>
  ⟨.ok (), { s with container := s.container.setDefinition id d }, []⟩

/-- The call `this._container.setParameter(key, value)`. -/
def setParameter (key : Str) (value : JSVal) : LoaderM Unit := fun s =>
  ⟨.ok (), { s with container := s.container.setParameter key value }, []⟩

/-- The lookup `services[id]` (`none` is `undefined`). -/
def getService (services : List (Str × RawService)) (id : Str) : Option RawService :=
  (services.find? (fun e => e.1 == id)).map Prod.snd

/-- The method `_parseDefinition(services, id)`.  A missing entry is `undefined`, whose
`factory` property cannot be read. -/
def _parseDefinition (w : World) (services : List (Str × RawService)) (id : Str) :
    LoaderM Unit :=
  match getService services id with
  | none => LoaderM.throw .typeError
  | some (.str service) => setAlias id (slice1 service 1)
  | some (.record service) =>
    match service.factory with
    | some factory => do
      let d ← _getFactoryDefinition w service factory
      setDefinition id d
    | none => do
      let d ← _getDefinition w service
      setDefinition id d

/-- The method `_parseDefinitions(services)`. -/
def _parseDefinitions (w : World) (services : Option (List (Str × RawService))) :
    LoaderM Unit :=
  ((services.getD []).map Prod.fst).forM (fun id => _parseDefinition w (services.getD []) id)

/-- The method `_parseParameters(parameters)`. -/
def _parseParameters (parameters : Option (List (Str × JSVal))) : LoaderM Unit :=
  ((parameters.getD []).map Prod.fst).forM (fun key =>
    setParameter key (getProp (parameters.getD []) key))

/-- One entry of `imports`: `{resource}`. -/
structure ImportSpec where
  resource : Str
  deriving DecidableEq, Repr

/-- The behaviour of the subclass method `load(file)`: any function of the loader state. -/
abbrev LoadFn := Str → LoaderState → Except Err Unit × LoaderState

/-- The call `this.load(file)`. -/
def callLoad (load : LoadFn) (file : Str) : LoaderM Unit := fun s =>
  ⟨(load file s).1, (load file s).2, [.load file]⟩

/-- The method `_checkFile(file)`. -/
def _checkFile (file : Str) : LoaderM Unit := setFilePath file

/-- The body of the loop of `_parseImports`, for one import `file`. -/
def importFile (w : World) (load : LoadFn) (file : ImportSpec) : LoaderM Unit := do
  let s ← getState
  let workingPath := s.filePath
  let s ← getState
  callLoad load (w.join [w.dirname s.filePath, file.resource])
  setFilePath workingPath

/-- The method `_parseImports(imports)`. -/
def _parseImports (w : World) (load : LoadFn) (imports : Option (List ImportSpec)) :
    LoaderM Unit :=
  (imports.getD []).forM (importFile w load)

/-! ## Concrete worlds and documents used to evaluate the loader -/

/-- A small world: the environment holds `PORT=8080`, the file system holds
`/app/config/App.js`, whose module is the plain object `{default: <class 1>}`, and `path`
works on `/`-separated paths that need no normalisation. -/
def demoWorld : World where
  env := fun name => if name = "PORT".toList then some "8080".toList else none
  existsSync := fun p => p = "/app/config/App.js".toList
  resolvePaths := fun _ => none
  resolve := fun request _ => .error (.moduleNotFound request)
  require := fun p =>
    if p = "/app/config/App".toList then .ok (plainModule [("default".toList, .obj 1)])
    else .error (.moduleNotFound p)
  sep := '/'
  isAbsolute := fun p => p.head? = some '/'
  join := fun parts => ['/'].intercalate parts
  dirname := fun p => ['/'].intercalate (p.splitOn '/').dropLast
  basename := fun p => ((p.splitOn '/').getLast?).getD []

/-- A loader at `/app/config/services.yml` whose container holds the parameters
`environment = "prod"` and `greeting = "hi"`. -/
def demoState : LoaderState where
  container :=
    { parameters := [("environment".toList, .str "prod".toList),
        ("greeting".toList, .str "hi".toList)]
      aliases := []
      definitions := []
      defaultDir := none }
  filePath := "/app/config/services.yml".toList

/-- The service record `{}`: every key absent. -/
def emptyRecord : ServiceRecord where
  «class» := none
  main := none
  factory := none
  arguments := none
  properties := none
  calls := none
  tags := none
  shared := .undefined
  lazy := .undefined
  «public» := .undefined
  «abstract» := .undefined
  parent := .undefined
  decorates := .undefined
  decoration_priority := .undefined
  deprecated := .undefined
  synthetic := .undefined

/-- An abstract class-backed record: `{class: "App", abstract: true,
arguments: ["@logger", "%greeting%"]}`. -/
def demoAbstractRecord : ServiceRecord :=
  { emptyRecord with
    «class» := some "App".toList
    «abstract» := .bool true
    arguments := some [.str "@logger".toList, .str "%greeting%".toList] }

/-- The definition compiled from `demoAbstractRecord` in `demoWorld` and `demoState`. -/
def demoAbstractDefinition : Definition :=
  { Definition.new (.obj 1) with
    «abstract» := .bool true
    appendArgs := [.reference ⟨"logger".toList, false⟩, .value (.str "hi".toList)]
    parent := .undefined
    decoratedService := .undefined
    decorationPriority := .undefined
    deprecated := .undefined
    shared := .undefined }

/-- A recursive `load` that leaves `filePath` pointing at the imported document. -/
def demoLoad : LoadFn := fun file s => (.ok (), { s with filePath := file })

/-- A class-backed record with falsy flags and two tags of the same name:
`{class: "App", public: 0, lazy: null, tags: [{name: "listener", attributes: {event:
"start"}}, {name: "listener"}]}`. -/
def demoTaggedRecord : ServiceRecord :=
  { emptyRecord with
    «class» := some "App".toList
    «public» := .num 0
    lazy := .null
    tags := some [⟨.str "listener".toList, some [("event".toList, .str "start".toList)]⟩,
      ⟨.str "listener".toList, none⟩] }

/-- The definition compiled from `demoTaggedRecord` in `demoWorld` and `demoState`. -/
def demoTaggedDefinition : Definition :=
  { Definition.new (.obj 1) with
    tags := [(.str "listener".toList, [("event".toList, .str "start".toList)]),
      (.str "listener".toList, [])]
    parent := .undefined
    decoratedService := .undefined
    decorationPriority := .undefined
    deprecated := .undefined
    shared := .undefined }

/-- Whether an export table has an entry named `key`. -/
def hasExport (exportedModule : List (Str × JSVal)) (key : Str) : Bool :=
  exportedModule.any (fun e => e.1 == key)

/-- The class exporter lookup in the words of the specification: the export with the
preferred name when a name was supplied and that export is present, otherwise the default
export when present, otherwise the export named like the file (absent when there is
none). -/
def exportBySpec (exportedModule : List (Str × JSVal)) (mainClassName : Option Str)
    (fileName : Str) : JSVal :=
  match mainClassName with
  | some name =>
    if hasExport exportedModule name then getProp exportedModule name
    else if hasExport exportedModule "default".toList then getProp exportedModule "default".toList
    else getProp exportedModule fileName
  | none =>
    if hasExport exportedModule "default".toList then getProp exportedModule "default".toList
    else getProp exportedModule fileName

/-- The world `demoWorld`, except that every module is the plain object
`{default: null, App: <class 7>}`. -/
def nullDefaultWorld : World :=
  { demoWorld with
    require := fun _ => .ok (plainModule [("default".toList, .null), ("App".toList, .obj 7)]) }

/-- The number of registrations in the alias table and the definition table. -/
def registrations (s : LoaderState) : Nat :=
  s.container.aliases.length + s.container.definitions.length

/-- A service map whose second record cannot be compiled:
`{a: "@b", bad: {class: "Missing"}}`. -/
def demoFailingServices : List (Str × RawService) :=
  [("a".toList, .str "@b".toList),
    ("bad".toList, .record { emptyRecord with «class» := some "Missing".toList })]

/-- Whether a definition has a class-backed implementation: a present (truthy)
implementation symbol. -/
def Definition.classBacked (d : Definition) : Bool := d.Object.truthy

/-- Whether a factory object is present: a service reference, or a truthy class. -/
def FactoryObject.present : FactoryObject → Bool
  | .reference _ => true
  | .cls v => v.truthy

/-- Whether a value is a method name: a non-empty string. -/
def JSVal.isName : JSVal → Bool
  | .str s => !s.isEmpty
  | _ => false

/-- Whether a definition is factory-backed: it has a factory whose object is present and
whose method is a name. -/
def Definition.factoryBacked (d : Definition) : Bool :=
  match d.factory with
  | some (object, method) => object.present && method.isName
  | none => false

/-- A record that declares a factory next to a class:
`{class: "App", factory: {class: "@mailer.factory", method: "create"}}`. -/
def demoFactoryRecord : ServiceRecord :=
  { emptyRecord with
    «class» := some "App".toList
    factory := some ⟨some "@mailer.factory".toList, .str "create".toList⟩ }

/-- The definition compiled from `demoFactoryRecord`. -/
def demoFactoryDefinition : Definition :=
  { Definition.new .undefined with
    shared := .undefined
    factory := some (.reference ⟨"mailer.factory".toList, false⟩, .str "create".toList) }

/-- The world `demoWorld`, except that every module is the plain object `{}`. -/
def emptyModuleWorld : World :=
  { demoWorld with require := fun _ => .ok (plainModule []) }

/-! ## Node's POSIX `path.join` -/

/-- One step of the segment loop of `normalizeString`: an empty segment and `.` are
dropped, `..` removes the segment before it (or stays, above the start of a relative
path), every other segment is kept. -/
def normalizeStep (allowAboveRoot : Bool) (res : List Str) (segment : Str) : List Str :=
  if segment = [] ∨ segment = ['.'] then res
  else if segment = ['.', '.'] then
    match res.getLast? with
    | some last =>
      if last = ['.', '.'] then (if allowAboveRoot then res ++ [segment] else res)
      else res.dropLast
    | none => if allowAboveRoot then res ++ [segment] else res
  else res ++ [segment]

/-- The segment loop of `normalizeString`. -/
def normalizeSegments (allowAboveRoot : Bool) (segments : List Str) : List Str :=
  segments.foldl (normalizeStep allowAboveRoot) []

/-- The call `path.posix.normalize(p)`. -/
def posixNormalize (p : Str) : Str :=
  if p = [] then ['.']
  else
    let isAbsolute : Bool := p.head? = some '/'
    let trailingSeparator : Bool := p.getLast? = some '/'
    let res := ['/'].intercalate (normalizeSegments (!isAbsolute) (p.splitOn '/'))
    if res = [] then
      if isAbsolute then ['/'] else if trailingSeparator then ['.', '/'] else ['.']
    else
      (if isAbsolute then ['/'] else []) ++ res ++ (if trailingSeparator then ['/'] else [])

/-- The call `path.posix.join(...parts)`: the non-empty parts are joined with `/` and the
result is normalised. -/
def posixJoin (parts : List Str) : Str :=
  if parts.filter (fun part => !part.isEmpty) = [] then ['.']
  else posixNormalize (['/'].intercalate (parts.filter (fun part => !part.isEmpty)))

/-- The world `demoWorld` with the `path.join` of a POSIX system. -/
def posixWorld : World := { demoWorld with join := posixJoin }

/-- The folder name `node_modules`. -/
def nodeModules : Str := ['n', 'o', 'd', 'e', '_', 'm', 'o', 'd', 'u', 'l', 'e', 's']

/-- A plain path segment: not empty, without `/`, and neither `.` nor `..`. -/
def PlainSegment (segment : Str) : Prop :=
  segment ≠ [] ∧ '/' ∉ segment ∧ segment ≠ ['.'] ∧ segment ≠ ['.', '.']

/-- The class exporter lookup among the own exports, by truthiness: the export with the
preferred name when a name was supplied and the export's value is truthy, otherwise the
default export when its value is truthy, otherwise the export named like the file (absent
when there is none). -/
def firstTruthyExport (exportedModule : List (Str × JSVal)) (mainClassName : Option Str)
    (fileName : Str) : JSVal :=
  match mainClassName with
  | some name =>
    if (getProp exportedModule name).truthy then getProp exportedModule name
    else if (getProp exportedModule "default".toList).truthy then
      getProp exportedModule "default".toList
    else getProp exportedModule fileName
  | none =>
    if (getProp exportedModule "default".toList).truthy then
      getProp exportedModule "default".toList
    else getProp exportedModule fileName

/-- The service map `demoFailingServices` followed by a record that would compile:
`{a: "@b", bad: {class: "Missing"}, later: {class: "App"}}`. -/
def demoFailingServicesLater : List (Str × RawService) :=
  demoFailingServices ++
    [("later".toList, .record { emptyRecord with «class» := some "App".toList })]

/-- A method that never changes the loader state. -/
def ReadOnly {α : Type} (m : LoaderM α) : Prop := ∀ s, (m s).state = s

/-! ## Lemmas on slices and on the loader monad -/

theorem pure_run {α : Type} (a : α) (s : LoaderState) :
    (pure a : LoaderM α) s = ⟨.ok a, s, []⟩ := rfl

theorem bind_run {α β : Type} (m : LoaderM α) (f : α → LoaderM β) (s : LoaderState) :
    (m >>= f) s = LoaderM.bind m f s := rfl

theorem sliceIndex_natCast (len n : Nat) : sliceIndex len (n : Int) = min n len := by
  simp [sliceIndex]

theorem sliceIndex_neg (len n : Nat) (h : 0 < n) : sliceIndex len (-(n : Int)) = len - n := by
  have : -(n : Int) < 0 := by omega
  simp only [sliceIndex, this, if_true]
  omega

theorem drop_min_length {α : Type} (xs : List α) (n : Nat) :
    xs.drop (min n xs.length) = xs.drop n := by
  rcases Nat.le_total n xs.length with h | h
  · rw [Nat.min_eq_left h]
  · rw [Nat.min_eq_right h, List.drop_of_length_le h, List.drop_of_length_le (le_refl _)]

theorem slice1_natCast {α : Type} (xs : List α) (n : Nat) : slice1 xs (n : Int) = xs.drop n := by
  simp only [slice1, sliceIndex_natCast, drop_min_length]

theorem slice2_natCast {α : Type} (xs : List α) (a b : Nat) :
    slice2 xs (a : Int) (b : Int) = (xs.drop a).take (b - a) := by
  simp only [slice2, sliceIndex_natCast, drop_min_length]
  rw [List.take_eq_take, List.length_drop]
  omega

theorem slice2_natCast_neg {α : Type} (xs : List α) (a b : Nat) (hb : 0 < b) :
    slice2 xs (a : Int) (-(b : Int)) = (xs.drop a).take (xs.length - b - a) := by
  simp only [slice2, sliceIndex_neg _ _ hb, sliceIndex_natCast, drop_min_length]
  rw [List.take_eq_take, List.length_drop]
  omega

theorem slice1_neg_one {α : Type} (xs : List α) : slice1 xs (-1) = xs.drop (xs.length - 1) := by
  have := sliceIndex_neg xs.length 1 (by decide)
  simp only [slice1]
  rw [show (-1 : Int) = -((1 : Nat) : Int) from rfl, this]

theorem slice2_0_1 (s : Str) : slice2 s 0 1 = s.take 1 := by
  simpa using slice2_natCast s 0 1

theorem slice2_0_2 (s : Str) : slice2 s 0 2 = s.take 2 := by
  simpa using slice2_natCast s 0 2

theorem slice2_0_7 (s : Str) : slice2 s 0 7 = s.take 7 := by
  simpa using slice2_natCast s 0 7

theorem slice2_1_4 (s : Str) : slice2 s 1 4 = (s.drop 1).take 3 := slice2_natCast s 1 4

theorem slice2_5_m2 (s : Str) : slice2 s 5 (-2) = (s.drop 5).take (s.length - 2 - 5) :=
  slice2_natCast_neg s 5 2 (by decide)

theorem slice2_1_m1 (s : Str) : slice2 s 1 (-1) = (s.drop 1).dropLast := by
  have h := slice2_natCast_neg s 1 1 (by decide)
  rw [show (-((1 : Nat) : Int)) = -1 from rfl, show ((1 : Nat) : Int) = 1 from rfl] at h
  rw [h, List.dropLast_eq_take, List.length_drop]

theorem slice1_1 (s : Str) : slice1 s 1 = s.drop 1 := slice1_natCast s 1

theorem slice1_2 (s : Str) : slice1 s 2 = s.drop 2 := slice1_natCast s 2

theorem slice1_8 (s : Str) : slice1 s 8 = s.drop 8 := slice1_natCast s 8

/-- The test `s.slice(-1) === c` holds exactly when `s` ends with the character `c`. -/
theorem slice1_neg_one_eq_iff (s : Str) (c : Char) : slice1 s (-1) = [c] ↔ [c] <:+ s := by
  rw [slice1_neg_one]
  constructor
  · intro h
    exact ⟨s.take (s.length - 1), by rw [← h, List.take_append_drop]⟩
  · rintro ⟨t, rfl⟩
    simp

/-! ## The value parser: claims C1, C2, C5, C6, C7 -/

/-- C1: the string `%environment%` is wrapped in `%` and its interior `environment` does
not begin with `env(`, yet in every world and state `_parseArgument` reads the process
environment under the name `ronmen` and never calls `getParameter`; in `demoState`, where
the parameter `environment` is `prod`, the parser returns `undefined`. -/
theorem C1_parseArgument_env_start_read_from_environment (w : World) (st : LoaderState) :
    (2 ≤ "%environment%".toList.length ∧ ['%'] <+: "%environment%".toList ∧
      ['%'] <:+ "%environment%".toList ∧
      ¬ "env(".toList <+: ("%environment%".toList.drop 1).dropLast) ∧
    _parseArgument w (.str "%environment%".toList) st
      = ⟨.ok (.value (match w.env "ronmen".toList with | some v => .str v | none => .undefined)),
          st, [.env "ronmen".toList]⟩ ∧
    getParameter ("%environment%".toList.drop 1).dropLast demoState
      = ⟨.ok (.str "prod".toList), demoState, [.getParameter "environment".toList]⟩ ∧
    _parseArgument demoWorld (.str "%environment%".toList) demoState
      = ⟨.ok (.value .undefined), demoState, [.env "ronmen".toList]⟩ := by
  refine ⟨by decide, ?_, rfl, rfl⟩
  simp [_parseArgument, _getArgumentParameter, readEnv, emit, bind_run, LoaderM.bind,
    slice2, slice1, sliceIndex]
  cases w.env ['r', 'o', 'n', 'm', 'e', 'n'] <;> rfl

/-- C2: the string `!taggedfoo` begins with neither `@` nor `%` and does not begin with
the eight characters `!tagged `, yet in every world and state `_parseArgument` returns a
`TagReference`, named `oo`: the eighth character is dropped unchecked. -/
theorem C2_parseArgument_tagged_without_space (w : World) (st : LoaderState) :
    (¬ ['@'] <+: "!taggedfoo".toList ∧ ¬ ['%'] <+: "!taggedfoo".toList ∧
      ¬ "!tagged ".toList <+: "!taggedfoo".toList) ∧
    _parseArgument w (.str "!taggedfoo".toList) st
      = ⟨.ok (.tagReference "oo".toList), st, []⟩ :=
  ⟨by decide, rfl⟩

/-- C5: for every string `s` beginning with `@`: when `s` begins with `@?` the parser
returns an optional reference to `s` without its first two characters, otherwise a required
reference to `s` without its first character; no collaborator is called and the state is
unchanged.  So a string starting with `@?` is never a required reference to a target
starting with `?`. -/
theorem C5_parseArgument_reference (w : World) (st : LoaderState) (s : Str)
    (h : ['@'] <+: s) :
    (['@', '?'] <+: s →
      _parseArgument w (.str s) st = ⟨.ok (.reference ⟨s.drop 2, true⟩), st, []⟩) ∧
    (¬ ['@', '?'] <+: s →
      _parseArgument w (.str s) st = ⟨.ok (.reference ⟨s.drop 1, false⟩), st, []⟩) := by
  obtain ⟨t, rfl⟩ := h
  constructor
  · rintro ⟨u, hu⟩
    simp only [List.cons_append, List.nil_append, List.cons.injEq, true_and] at hu
    subst hu
    simp [_parseArgument, slice2_0_2, slice1_2, Reference.new2, pure_run]
  · intro hn
    have h2 : List.take 1 t ≠ ['?'] := by
      intro h2
      apply hn
      refine ⟨List.drop 1 t, ?_⟩
      have := List.take_append_drop 1 t
      rw [h2] at this
      simpa using this
    simp [_parseArgument, slice2_0_2, slice2_0_1, slice1_1, Reference.new1, pure_run, h2]

/-- Witness for C5 at `@?db`. -/
theorem C5_parseArgument_reference_witness :
    _parseArgument demoWorld (.str "@?db".toList) demoState
      = ⟨.ok (.reference ⟨"db".toList, true⟩), demoState, []⟩ :=
  (C5_parseArgument_reference demoWorld demoState "@?db".toList (by decide)).1 (by decide)

/-- C6: for every name `N`, every environment and every loader state,
`_parseArgument("%env(" + N + ")%")` returns the environment's value for exactly `N`
(`undefined` when unset); the only collaborator call is that environment read, so the
parameter store is not consulted. -/
theorem C6_parseArgument_env (w : World) (st : LoaderState) (N : Str) :
    _parseArgument w (.str (['%', 'e', 'n', 'v', '('] ++ N ++ [')', '%'])) st
      = ⟨.ok (.value (match w.env N with | some v => .str v | none => .undefined)), st,
          [.env N]⟩ := by
  simp only [_parseArgument, _getArgumentParameter, slice2_0_2, slice2_0_1, slice2_1_4,
    slice2_5_m2, slice1_neg_one]
  simp [readEnv, emit, bind_run, LoaderM.bind]
  cases w.env N <;> rfl

/-- C7: for every string `s` that begins with `%` and does not end with `%`, the parser
returns a `PackageReference` named `s` without its first character, in every state and
world, with no collaborator call at all (neither the parameter store nor the environment
is read) and the state unchanged. -/
theorem C7_parseArgument_handle (w : World) (st : LoaderState) (s : Str)
    (h1 : ['%'] <+: s) (h2 : ¬ ['%'] <:+ s) :
    _parseArgument w (.str s) st = ⟨.ok (.packageReference (s.drop 1)), st, []⟩ := by
  have hlast : slice1 s (-1) ≠ ['%'] := fun h => h2 ((slice1_neg_one_eq_iff s '%').1 h)
  obtain ⟨t, rfl⟩ := h1
  simp only [List.singleton_append] at hlast ⊢
  simp [_parseArgument, slice2_0_2, slice2_0_1, slice1_1, pure_run, hlast]

/-- Witness for C7 at `%timeout`, in a state whose parameter store has no `timeout`. -/
theorem C7_parseArgument_handle_witness :
    _parseArgument demoWorld (.str "%timeout".toList) demoState
      = ⟨.ok (.packageReference "timeout".toList), demoState, []⟩ :=
  C7_parseArgument_handle demoWorld demoState "%timeout".toList (by decide) (by decide)

/-! ## The definition compiler: claims C3, C8, C10 -/

/-- C3: the factory class specifier `lib/@acme/Factory` does not begin with `@`, yet in
every world and state `_getFactoryDefinition` builds a `Reference` (to
`ib/@acme/Factory`) as the factory object, without calling the module resolver. -/
theorem C3_getFactoryDefinition_sigil_inside_specifier (w : World) (st : LoaderState) :
    ¬ ['@'] <+: "lib/@acme/Factory".toList ∧
    _getFactoryDefinition w emptyRecord ⟨some "lib/@acme/Factory".toList, .str "create".toList⟩ st
      = ⟨.ok { Definition.new .undefined with
            shared := .undefined
            factory := some (.reference ⟨"ib/@acme/Factory".toList, false⟩,
              .str "create".toList) },
          st, []⟩ :=
  ⟨by decide, rfl⟩

/-- C8: when the raw value of the service `id` is a string `s` beginning with `@`,
`_parseDefinition` succeeds, appends exactly the alias `id -> s` without its first
character to the alias table, leaves the definition table and the rest of the state
unchanged, and calls no collaborator (in particular not the module resolver). -/
theorem C8_parseDefinition_alias (w : World) (st : LoaderState)
    (services : List (Str × RawService)) (id s : Str)
    (hget : getService services id = some (.str s)) (_hs : ['@'] <+: s) :
    _parseDefinition w services id st
      = ⟨.ok (),
          { st with container :=
              { st.container with aliases := st.container.aliases ++ [(id, s.drop 1)] } },
          []⟩ := by
  simp [_parseDefinition, hget, setAlias, Container.setAlias, slice1_1]

/-- Witness for C8: the document `{logger_alias: "@logger"}`. -/
theorem C8_parseDefinition_alias_witness :
    _parseDefinition demoWorld [("logger_alias".toList, .str "@logger".toList)]
        "logger_alias".toList demoState
      = ⟨.ok (),
          { demoState with container :=
              { demoState.container with
                aliases := demoState.container.aliases
                  ++ [("logger_alias".toList, "@logger".toList.drop 1)] } },
          []⟩ :=
  C8_parseDefinition_alias demoWorld demoState _ _ _ (by decide) (by decide)

/-- C10: for every record whose `synthetic` flag is truthy, in every world and state,
`_getDefinition` returns a definition with `synthetic = true`, no implementation object,
no factory, and empty arguments, appended arguments, properties, method calls and tags,
whatever else the record declares; the state is unchanged and no collaborator is called
(neither the module resolver nor the parameter store or environment). -/
theorem C10_getDefinition_synthetic (w : World) (st : LoaderState) (service : ServiceRecord)
    (h : service.synthetic.truthy = true) :
    ∃ d : Definition,
      _getDefinition w service st = ⟨.ok d, st, []⟩ ∧
      d.synthetic = .bool true ∧ d.Object = .undefined ∧ d.factory = none ∧
      d.args = [] ∧ d.appendArgs = [] ∧ d.properties = [] ∧ d.calls = [] ∧ d.tags = [] :=
  ⟨{ Definition.new .undefined with synthetic := .bool true },
    by simp [_getDefinition, h, pure_run], rfl, rfl, rfl, rfl, rfl, rfl, rfl, rfl⟩

/-- Witness for C10: a synthetic record that also declares a class, arguments and tags. -/
theorem C10_getDefinition_synthetic_witness :
    ∃ d : Definition,
      _getDefinition demoWorld
          { emptyRecord with
            synthetic := .bool true
            «class» := some "./App".toList
            arguments := some [.str "%missing%".toList]
            tags := some [⟨.str "t".toList, none⟩] } demoState
        = ⟨.ok d, demoState, []⟩ ∧
      d.synthetic = .bool true ∧ d.Object = .undefined ∧ d.factory = none ∧
      d.args = [] ∧ d.appendArgs = [] ∧ d.properties = [] ∧ d.calls = [] ∧ d.tags = [] :=
  C10_getDefinition_synthetic demoWorld demoState _ (by decide)

/-! ## The document compiler: claim C4 -/

theorem forM_cons_run {α : Type} (f : α → LoaderM PUnit) (a : α) (as : List α) :
    List.forM (a :: as) f = (f a >>= fun _ => List.forM as f) := rfl

/-- One import, when `load` returns normally: `load` is called with the directory of the
current `filePath` joined with the resource, and `filePath` is put back afterwards. -/
theorem importFile_run (w : World) (load : LoadFn) (hload : ∀ p s, (load p s).1 = .ok ())
    (file : ImportSpec) (s : LoaderState) :
    importFile w load file s
      = ⟨.ok (), { (load (w.join [w.dirname s.filePath, file.resource]) s).2 with
            filePath := s.filePath },
          [.load (w.join [w.dirname s.filePath, file.resource])]⟩ := by
  simp only [importFile, bind_run, LoaderM.bind, getState, callLoad, setFilePath, hload,
    List.nil_append, List.append_nil]

/-- One pass over an import list, when `load` returns normally: the run succeeds,
`filePath` is what it was on entry, and `load` was called once per import, in order, each
time with the entry directory joined with the import's resource. -/
theorem parseImports_run (w : World) (load : LoadFn)
    (hload : ∀ p s, (load p s).1 = .ok ()) (imports : List ImportSpec) (st : LoaderState) :
    (_parseImports w load (some imports) st).result = .ok () ∧
    (_parseImports w load (some imports) st).state.filePath = st.filePath ∧
    (_parseImports w load (some imports) st).trace
      = imports.map (fun file => Effect.load (w.join [w.dirname st.filePath, file.resource])) := by
  induction imports generalizing st with
  | nil => exact ⟨rfl, rfl, rfl⟩
  | cons file rest ih =>
    have ih1 := ih { (load (w.join [w.dirname st.filePath, file.resource]) st).2 with
      filePath := st.filePath }
    simp only [_parseImports, Option.getD_some] at ih1 ⊢
    rw [forM_cons_run, bind_run]
    simp only [LoaderM.bind, importFile_run w load hload]
    obtain ⟨h1, h2, h3⟩ := ih1
    refine ⟨h1, h2, ?_⟩
    simp only [h3, List.map_cons, List.singleton_append]

/-- C4: for every import list and every `load` that returns normally (whatever it does to
the state, `filePath` included), `_parseImports` succeeds and calls `load` exactly once
per import, in order, the i-th time with `join(dirname(F), resource_i)` where `F` is
`filePath` on entry; `filePath` is `F` again on exit and after each import (that is,
after every initial segment of the import list has been processed). -/
theorem C4_parseImports_rebases_and_restores (w : World) (load : LoadFn)
    (hload : ∀ p s, (load p s).1 = .ok ()) (imports : List ImportSpec) (st : LoaderState) :
    (_parseImports w load (some imports) st).result = .ok () ∧
    (_parseImports w load (some imports) st).trace
      = imports.map (fun file => Effect.load (w.join [w.dirname st.filePath, file.resource])) ∧
    (_parseImports w load (some imports) st).state.filePath = st.filePath ∧
    ∀ i, i ≤ imports.length →
      (_parseImports w load (some (imports.take i)) st).state.filePath = st.filePath := by
  obtain ⟨h1, h2, h3⟩ := parseImports_run w load hload imports st
  exact ⟨h1, h3, h2, fun i _ => (parseImports_run w load hload (imports.take i) st).2.1⟩

/-- Witness for C4: two sibling imports and a `load` that leaves `filePath` pointing at
the document it loaded. -/
theorem C4_parseImports_rebases_and_restores_witness :
    (_parseImports demoWorld demoLoad (some [⟨"a.yml".toList⟩, ⟨"sub/b.yml".toList⟩])
        demoState).trace
      = [.load "/app/config/a.yml".toList, .load "/app/config/sub/b.yml".toList] ∧
    (_parseImports demoWorld demoLoad (some [⟨"a.yml".toList⟩, ⟨"sub/b.yml".toList⟩])
        demoState).state.filePath = "/app/config/services.yml".toList :=
  have h := C4_parseImports_rebases_and_restores demoWorld demoLoad (fun _ _ => rfl)
    [⟨"a.yml".toList⟩, ⟨"sub/b.yml".toList⟩] demoState
  ⟨h.2.1.trans (by decide), h.2.2.1⟩

/-! ## Class-backed definitions: claim C9 -/

theorem readOnly_pure {α : Type} (a : α) : ReadOnly (pure a : LoaderM α) := fun _ => rfl

theorem readOnly_throw {α : Type} (e : Err) : ReadOnly (LoaderM.throw e : LoaderM α) :=
  fun _ => rfl

theorem readOnly_emit (e : Effect) : ReadOnly (emit e) := fun _ => rfl

theorem readOnly_getState : ReadOnly getState := fun _ => rfl

theorem readOnly_liftExcept {α : Type} (r : Except Err α) : ReadOnly (liftExcept r) := by
  cases r <;> exact fun _ => rfl

theorem readOnly_bind {α β : Type} (m : LoaderM α) (f : α → LoaderM β) (hm : ReadOnly m)
    (hf : ∀ a, ReadOnly (f a)) : ReadOnly (m >>= f) := by
  intro s
  have h1 := hm s
  rw [bind_run]
  unfold LoaderM.bind
  rcases hms : m s with ⟨r, s1, t1⟩
  rw [hms] at h1
  cases r with
  | error e => exact h1
  | ok a =>
    have h2 := hf a s1
    simp only at h1 ⊢
    rw [h2, h1]

theorem readOnly_ite {α : Type} (c : Prop) [Decidable c] (m n : LoaderM α) (hm : ReadOnly m)
    (hn : ReadOnly n) : ReadOnly (if c then m else n) := by
  split
  · exact hm
  · exact hn

theorem foldlM_cons_run {α β : Type} (f : β → α → LoaderM β) (b : β) (a : α) (l : List α) :
    List.foldlM f b (a :: l) = (f b a >>= fun b1 => List.foldlM f b1 l) := rfl

theorem readOnly_foldlM {α β : Type} (f : β → α → LoaderM β) (hf : ∀ b a, ReadOnly (f b a))
    (l : List α) (b : β) : ReadOnly (List.foldlM f b l) := by
  induction l generalizing b with
  | nil => exact readOnly_pure b
  | cons a l ih =>
    rw [foldlM_cons_run]
    exact readOnly_bind _ _ (hf b a) (fun b1 => ih b1)

/-- If `m >>= f` returns a value then `m` returned one and `f` returned the final value
from the state `m` left. -/
theorem bind_result_ok {α β : Type} (m : LoaderM α) (f : α → LoaderM β) (s : LoaderState)
    (b : β) (h : ((m >>= f) s).result = .ok b) :
    ∃ a, (m s).result = .ok a ∧ (f a (m s).state).result = .ok b := by
  rw [bind_run] at h
  unfold LoaderM.bind at h
  rcases hms : m s with ⟨r, s1, t1⟩
  rw [hms] at h
  cases r with
  | error e => simp at h
  | ok a => exact ⟨a, rfl, h⟩

theorem readOnly_getParameter (name : Str) : ReadOnly (getParameter name) :=
  readOnly_bind _ _ (readOnly_emit _) (fun _ =>
    readOnly_bind _ _ readOnly_getState (fun _ => readOnly_liftExcept _))

theorem readOnly_readEnv (w : World) (name : Str) : ReadOnly (readEnv w name) := by
  refine readOnly_bind _ _ (readOnly_emit _) (fun _ => ?_)
  cases w.env name <;> exact readOnly_pure _

theorem readOnly_getArgumentParameter (w : World) (argument : Str) :
    ReadOnly (_getArgumentParameter w argument) := by
  unfold _getArgumentParameter
  refine readOnly_ite _ _ _ ?_ ?_
  · exact readOnly_bind _ _ (readOnly_readEnv w _) (fun _ => readOnly_pure _)
  · exact readOnly_bind _ _ (readOnly_getParameter _) (fun _ => readOnly_pure _)

theorem readOnly_parseArgument (w : World) (argument : JSVal) :
    ReadOnly (_parseArgument w argument) := by
  unfold _parseArgument
  cases argument with
  | bool b => exact readOnly_pure _
  | str s =>
    simp only
    refine readOnly_ite _ _ _ (readOnly_pure _) ?_
    refine readOnly_ite _ _ _ (readOnly_pure _) ?_
    refine readOnly_ite _ _ _ (readOnly_getArgumentParameter w s) ?_
    refine readOnly_ite _ _ _ (readOnly_pure _) ?_
    exact readOnly_ite _ _ _ (readOnly_pure _) (readOnly_pure _)
  | undefined => exact readOnly_throw _
  | null => exact readOnly_throw _
  | num n => exact readOnly_throw _
  | obj r => exact readOnly_throw _

theorem readOnly_getParsedArguments (w : World) (args : Option (List JSVal)) :
    ReadOnly (_getParsedArguments w args) :=
  readOnly_foldlM _ (fun _ a =>
    readOnly_bind _ _ (readOnly_parseArgument w a) (fun _ => readOnly_pure _)) _ _

theorem readOnly_existsSync (w : World) (p : Str) : ReadOnly (existsSync w p) :=
  readOnly_bind _ _ (readOnly_emit _) (fun _ => readOnly_pure _)

theorem readOnly_existsEither (w : World) (p q : Str) : ReadOnly (existsEither w p q) := by
  refine readOnly_bind _ _ (readOnly_existsSync w _) (fun first => ?_)
  cases first
  · exact readOnly_existsSync w _
  · exact readOnly_pure _

theorem readOnly_tryToGuessClassPath (w : World) (classObject : Str) :
    ReadOnly (_tryToGuessClassPath w classObject) := by
  unfold _tryToGuessClassPath
  refine readOnly_ite _ _ _ (readOnly_pure _) ?_
  refine readOnly_bind _ _ readOnly_getState (fun s => ?_)
  refine readOnly_bind _ _ (readOnly_existsEither w _ _) (fun found => ?_)
  · cases found
    · simp only [Bool.false_eq_true, if_false]
      refine readOnly_ite _ _ _ ?_ ?_
      · exact readOnly_bind _ _ (readOnly_emit _) (fun _ => readOnly_liftExcept _)
      · exact readOnly_bind _ _ (readOnly_emit _) (fun _ =>
          readOnly_bind _ _ (readOnly_emit _) (fun _ => readOnly_liftExcept _))
    · exact readOnly_pure _

theorem readOnly_requireClassNameFromPath (w : World) (classObject mainClassName : Option Str) :
    ReadOnly (_requireClassNameFromPath w classObject mainClassName) := by
  unfold _requireClassNameFromPath
  cases classObject with
  | none => exact readOnly_throw _
  | some c =>
    exact readOnly_bind _ _ (readOnly_tryToGuessClassPath w c) (fun _ =>
      readOnly_bind _ _ (readOnly_emit _) (fun _ =>
        readOnly_bind _ _ (readOnly_liftExcept _) (fun _ => readOnly_pure _)))

theorem foldlM_invariant {α β : Type} (I : β → Prop) (f : β → α → LoaderM β)
    (hf : ∀ b a s b1, I b → (f b a s).result = .ok b1 → I b1) (l : List α) (b : β)
    (s : LoaderState) (b1 : β) (hb : I b) (h : (List.foldlM f b l s).result = .ok b1) :
    I b1 := by
  induction l generalizing b s with
  | nil =>
    have e : b = b1 := by simpa [pure_run] using h
    exact e ▸ hb
  | cons a l ih =>
    rw [foldlM_cons_run] at h
    obtain ⟨b2, h1, h2⟩ := bind_result_ok _ _ _ _ h
    exact ih b2 _ (hf b a s b2 hb h1) h2

theorem pure_result_ok {α : Type} (a b : α) (s : LoaderState)
    (h : ((pure a : LoaderM α) s).result = .ok b) : a = b := by
  simpa [pure_run] using h

/-- The method `_parseProperties` leaves both argument lists of the definition alone. -/
theorem parseProperties_args (w : World) (d d1 : Definition)
    (properties : Option (List (Str × JSVal))) (s : LoaderState)
    (h : (_parseProperties w d properties s).result = .ok d1) :
    d1.args = d.args ∧ d1.appendArgs = d.appendArgs := by
  refine foldlM_invariant (fun x => x.args = d.args ∧ x.appendArgs = d.appendArgs) _ ?_ _ d s d1
    ⟨rfl, rfl⟩ h
  intro b a s1 b1 hb hstep
  obtain ⟨x, _, h2⟩ := bind_result_ok _ _ _ _ hstep
  rw [← pure_result_ok _ _ _ h2]
  exact hb

/-- The method `_parseCalls` leaves both argument lists of the definition alone. -/
theorem parseCalls_args (w : World) (d d1 : Definition) (calls : Option (List CallSpec))
    (s : LoaderState) (h : (_parseCalls w d calls s).result = .ok d1) :
    d1.args = d.args ∧ d1.appendArgs = d.appendArgs := by
  refine foldlM_invariant (fun x => x.args = d.args ∧ x.appendArgs = d.appendArgs) _ ?_ _ d s d1
    ⟨rfl, rfl⟩ h
  intro b a s1 b1 hb hstep
  obtain ⟨x, _, h2⟩ := bind_result_ok _ _ _ _ hstep
  rw [← pure_result_ok _ _ _ h2]
  exact hb

/-- The method `_parseTags` leaves both argument lists of the definition alone. -/
theorem parseTags_args (d : Definition) (tags : Option (List TagSpec)) :
    (_parseTags d tags).args = d.args ∧ (_parseTags d tags).appendArgs = d.appendArgs := by
  unfold _parseTags
  generalize tags.getD [] = l
  induction l generalizing d with
  | nil => exact ⟨rfl, rfl⟩
  | cons t l ih =>
    rw [List.foldl_cons]
    exact ih (d.addTag t.name (_parseTagAttributes t.attributes))

/-- C9: for every record that is not synthetic, whenever `_getDefinition` returns a
definition `d`, the record's argument list parsed to some list `P` (the value of
`_getParsedArguments` in the same state) and: if the record's `abstract` flag is `true`,
`d.appendArgs` is `P` and `d.args` is still the initial value of a fresh definition; if
`abstract` is absent or `false`, `d.args` is `P` and `d.appendArgs` is still the
initial value.  The parsed list is stored in one of the two places only. -/
theorem C9_getDefinition_arguments_placement (w : World) (st : LoaderState)
    (service : ServiceRecord) (d : Definition)
    (hsyn : service.synthetic.truthy = false)
    (hret : (_getDefinition w service st).result = .ok d) :
    ∃ P, (_getParsedArguments w service.arguments st).result = .ok P ∧
      (service.abstract = .bool true →
        d.appendArgs = P ∧ d.args = (Definition.new d.Object).args) ∧
      (service.abstract = .undefined ∨ service.abstract = .bool false →
        d.args = P ∧ d.appendArgs = (Definition.new d.Object).appendArgs) := by
  unfold _getDefinition at hret
  simp only [hsyn, Bool.not_false, if_true] at hret
  obtain ⟨object, _, h1⟩ := bind_result_ok _ _ _ _ hret
  rw [readOnly_requireClassNameFromPath w service.class service.main st] at h1
  obtain ⟨d1, hargs, h2⟩ := bind_result_ok _ _ _ _ h1
  obtain ⟨d2, hprops, h3⟩ := bind_result_ok _ _ _ _ h2
  obtain ⟨d3, hcalls, h4⟩ := bind_result_ok _ _ _ _ h3
  have hd := pure_result_ok _ _ _ h4
  have e3 := parseTags_args d3 service.tags
  have e2 := parseCalls_args w d2 d3 service.calls _ hcalls
  have e1 := parseProperties_args w d1 d2 service.properties _ hprops
  unfold _parseArguments at hargs
  obtain ⟨P, hP, h5⟩ := bind_result_ok _ _ _ _ hargs
  refine ⟨P, hP, ?_, ?_⟩
  · intro habs
    simp only [habs, JSVal.or, JSVal.truthy, if_true] at h5
    have hd1 := pure_result_ok _ _ _ h5
    rw [← hd, e3.1, e3.2, e2.1, e2.2, e1.1, e1.2, ← hd1]
    exact ⟨rfl, rfl⟩
  · intro habs
    have hfalse : (service.abstract.or (.bool false)).truthy = false := by
      rcases habs with habs | habs <;> rw [habs] <;> rfl
    simp only [hfalse, Bool.false_eq_true, if_false] at h5
    have hd1 := pure_result_ok _ _ _ h5
    rw [← hd, e3.1, e3.2, e2.1, e2.2, e1.1, e1.2, ← hd1]
    exact ⟨rfl, rfl⟩

/-- Witness for C9: the abstract record `demoAbstractRecord` compiles, and its two parsed
arguments are stored as the appended arguments. -/
theorem C9_getDefinition_arguments_placement_witness :
    ∃ P, (_getParsedArguments demoWorld demoAbstractRecord.arguments demoState).result = .ok P ∧
      (demoAbstractRecord.abstract = .bool true →
        demoAbstractDefinition.appendArgs = P ∧
        demoAbstractDefinition.args = (Definition.new demoAbstractDefinition.Object).args) ∧
      (demoAbstractRecord.abstract = .undefined ∨ demoAbstractRecord.abstract = .bool false →
        demoAbstractDefinition.args = P ∧
        demoAbstractDefinition.appendArgs
          = (Definition.new demoAbstractDefinition.Object).appendArgs) :=
  C9_getDefinition_arguments_placement demoWorld demoState demoAbstractRecord
    demoAbstractDefinition rfl rfl


/-! ## The shape of a compiled class-backed definition: claims C11, C12 -/

/-- The method `_parseProperties` changes nothing but the properties. -/
theorem parseProperties_frame (w : World) (d d1 : Definition)
    (properties : Option (List (Str × JSVal))) (s : LoaderState)
    (h : (_parseProperties w d properties s).result = .ok d1) :
    ∃ props, d1 = { d with properties := props } := by
  refine foldlM_invariant (fun x => ∃ props, x = { d with properties := props }) _ ?_ _ d s d1
    ⟨d.properties, rfl⟩ h
  rintro b a s1 b1 ⟨props, rfl⟩ hstep
  obtain ⟨x, _, h2⟩ := bind_result_ok _ _ _ _ hstep
  rw [← pure_result_ok _ _ _ h2]
  exact ⟨_, rfl⟩

/-- The method `_parseCalls` changes nothing but the method calls. -/
theorem parseCalls_frame (w : World) (d d1 : Definition) (calls : Option (List CallSpec))
    (s : LoaderState) (h : (_parseCalls w d calls s).result = .ok d1) :
    ∃ cs, d1 = { d with calls := cs } := by
  refine foldlM_invariant (fun x => ∃ cs, x = { d with calls := cs }) _ ?_ _ d s d1
    ⟨d.calls, rfl⟩ h
  rintro b a s1 b1 ⟨cs, rfl⟩ hstep
  obtain ⟨x, _, h2⟩ := bind_result_ok _ _ _ _ hstep
  rw [← pure_result_ok _ _ _ h2]
  exact ⟨_, rfl⟩

/-- The method `_parseTags` appends one entry per declared tag, in order, and changes
nothing else. -/
theorem parseTags_eq (d : Definition) (tags : Option (List TagSpec)) :
    _parseTags d tags = { d with tags := (d.tags ++
      (tags.getD []).map (fun t => (t.name, _parseTagAttributes t.attributes))) } := by
  unfold _parseTags
  generalize tags.getD [] = l
  induction l generalizing d with
  | nil => simp
  | cons t l ih =>
    rw [List.foldl_cons, ih]
    simp [Definition.addTag]

/-- The shape of every definition that `_getDefinition` returns for a record that is not
synthetic: a fresh definition around the class found by the exporter lookup, with the
record's flags copied, the parsed arguments in one of the two argument lists, and one tag
entry per declared tag. -/
theorem getDefinition_shape (w : World) (st : LoaderState) (service : ServiceRecord)
    (d : Definition) (hsyn : service.synthetic.truthy = false)
    (hret : (_getDefinition w service st).result = .ok d) :
    ∃ object P props cs,
      (_requireClassNameFromPath w service.class service.main st).result = .ok object ∧
      (_getParsedArguments w service.arguments st).result = .ok P ∧
      d = { Definition.new object with
        lazy := service.lazy.or (.bool false)
        «public» := .bool (decide (service.public ≠ .bool false))
        «abstract» := service.abstract.or (.bool false)
        parent := service.parent
        decoratedService := service.decorates
        decorationPriority := service.decoration_priority
        deprecated := service.deprecated
        shared := service.shared
        args := if (service.abstract.or (.bool false)).truthy then [] else P
        appendArgs := if (service.abstract.or (.bool false)).truthy then P else []
        properties := props
        calls := cs
        tags := (service.tags.getD []).map
          (fun t => (t.name, _parseTagAttributes t.attributes)) } := by
  unfold _getDefinition at hret
  simp only [hsyn, Bool.not_false, if_true] at hret
  obtain ⟨object, hobj, h1⟩ := bind_result_ok _ _ _ _ hret
  rw [readOnly_requireClassNameFromPath w service.class service.main st] at h1
  obtain ⟨d1, hargs, h2⟩ := bind_result_ok _ _ _ _ h1
  obtain ⟨d2, hprops, h3⟩ := bind_result_ok _ _ _ _ h2
  obtain ⟨d3, hcalls, h4⟩ := bind_result_ok _ _ _ _ h3
  have hd := pure_result_ok _ _ _ h4
  obtain ⟨cs, rfl⟩ := parseCalls_frame w d2 d3 service.calls _ hcalls
  obtain ⟨props, rfl⟩ := parseProperties_frame w d1 d2 service.properties _ hprops
  unfold _parseArguments at hargs
  obtain ⟨P, hP, h5⟩ := bind_result_ok _ _ _ _ hargs
  refine ⟨object, P, props, cs, hobj, hP, ?_⟩
  rw [← hd, parseTags_eq]
  by_cases habs : (service.abstract.or (.bool false)).truthy = true
  · simp only [habs, if_true] at h5 ⊢
    rw [← pure_result_ok _ _ _ h5]
    rfl
  · simp only [habs, if_false] at h5 ⊢
    rw [← pure_result_ok _ _ _ h5]
    rfl


/-- C11: for every record that is not synthetic, whenever `_getDefinition` returns a
definition `d`: `d.public` is `false` exactly when the record's `public` value is the
boolean `false`, and is `true` for every other value (absent, `null`, `0`, the empty
string, ...); `d.lazy` is `false` whenever the record's `lazy` is absent or falsy, and
`d.abstract` is `false` whenever the record's `abstract` is absent or falsy. -/
theorem C11_getDefinition_flags (w : World) (st : LoaderState) (service : ServiceRecord)
    (d : Definition) (hsyn : service.synthetic.truthy = false)
    (hret : (_getDefinition w service st).result = .ok d) :
    (d.public = .bool false ↔ service.public = .bool false) ∧
    (service.public ≠ .bool false → d.public = .bool true) ∧
    (service.lazy.truthy = false → d.lazy = .bool false) ∧
    (service.abstract.truthy = false → d.abstract = .bool false) := by
  obtain ⟨object, P, props, cs, _, _, rfl⟩ := getDefinition_shape w st service d hsyn hret
  refine ⟨?_, ?_, ?_, ?_⟩
  · by_cases h : service.public = .bool false <;> simp [h]
  · intro h
    simp [h]
  · intro h
    simp [JSVal.or, h]
  · intro h
    simp [JSVal.or, h]

/-- Witness for C11: `demoTaggedRecord` has `public: 0` and `lazy: null` and no `abstract`
key; its definition is public, not lazy and not abstract. -/
theorem C11_getDefinition_flags_witness :
    (demoTaggedDefinition.public = .bool false ↔ demoTaggedRecord.public = .bool false) ∧
    (demoTaggedRecord.public ≠ .bool false → demoTaggedDefinition.public = .bool true) ∧
    (demoTaggedRecord.lazy.truthy = false → demoTaggedDefinition.lazy = .bool false) ∧
    (demoTaggedRecord.abstract.truthy = false → demoTaggedDefinition.abstract = .bool false) :=
  C11_getDefinition_flags demoWorld demoState demoTaggedRecord demoTaggedDefinition rfl rfl

/-- Reading a declared key of an object with distinct keys gives the declared value. -/
theorem getProp_of_mem (a : List (Str × JSVal)) (hnodup : (a.map Prod.fst).Nodup)
    (e : Str × JSVal) (he : e ∈ a) : getProp a e.1 = e.2 := by
  induction a with
  | nil => simp at he
  | cons x xs ih =>
    rw [List.map_cons, List.nodup_cons] at hnodup
    rcases List.mem_cons.1 he with rfl | hmem
    · simp [getProp]
    · have hne : x.1 ≠ e.1 := by
        intro heq
        exact hnodup.1 (heq ▸ List.mem_map_of_mem Prod.fst hmem)
      have := ih hnodup.2 hmem
      simpa [getProp, List.find?_cons, hne] using this

theorem parseTagAttributes_fold (a rest acc : List (Str × JSVal))
    (hnodup : ((acc ++ rest).map Prod.fst).Nodup) (hval : ∀ e ∈ rest, getProp a e.1 = e.2) :
    (rest.map Prod.fst).foldl (fun m key => mapSet m key (getProp a key)) acc = acc ++ rest := by
  induction rest generalizing acc with
  | nil => simp
  | cons e rest ih =>
    have hfresh : acc.any (fun x => x.1 == e.1) = false := by
      rw [List.any_eq_false]
      intro x hx hxe
      have hxe1 : x.1 = e.1 := by simpa using hxe
      rw [List.map_append, List.map_cons, List.nodup_append] at hnodup
      exact hnodup.2.2 (List.mem_map_of_mem Prod.fst hx) (hxe1 ▸ List.mem_cons_self _ _)
    have hstep : mapSet acc e.1 (getProp a e.1) = acc ++ [e] := by
      rw [hval e (List.mem_cons_self _ _)]
      simp [mapSet, hfresh]
    rw [List.map_cons, List.foldl_cons, hstep, ih (acc ++ [e])]
    · simp
    · simpa using hnodup
    · intro x hx
      exact hval x (List.mem_cons_of_mem _ hx)

/-- The method `_parseTagAttributes` copies an object with distinct keys entry by entry,
and gives the empty map for absent attributes. -/
theorem parseTagAttributes_eq (attributes : Option (List (Str × JSVal)))
    (hnodup : ∀ a, attributes = some a → (a.map Prod.fst).Nodup) :
    _parseTagAttributes attributes = attributes.getD [] := by
  cases attributes with
  | none => rfl
  | some a =>
    have h := parseTagAttributes_fold a a [] (by simpa using hnodup a rfl)
      (fun e he => getProp_of_mem a (hnodup a rfl) e he)
    simpa [_parseTagAttributes] using h

/-- C12: for every record that is not synthetic, with tag list `T` whose attribute objects
have distinct keys, whenever `_getDefinition` returns a definition `d`: `d.tags` is, in
declaration order, one entry per element of `T` (so it has the length of `T` and keeps
tags of the same name apart), each entry being the tag's name with exactly the declared
attribute entries, and with the empty mapping when the tag declares no attributes. -/
theorem C12_getDefinition_tags (w : World) (st : LoaderState) (service : ServiceRecord)
    (d : Definition) (hsyn : service.synthetic.truthy = false)
    (hret : (_getDefinition w service st).result = .ok d)
    (hkeys : ∀ t ∈ service.tags.getD [], ∀ a, t.attributes = some a → (a.map Prod.fst).Nodup) :
    d.tags = (service.tags.getD []).map (fun t => (t.name, t.attributes.getD [])) ∧
    d.tags.length = (service.tags.getD []).length := by
  obtain ⟨object, P, props, cs, _, _, rfl⟩ := getDefinition_shape w st service d hsyn hret
  have hmap : (service.tags.getD []).map (fun t => (t.name, _parseTagAttributes t.attributes))
      = (service.tags.getD []).map (fun t => (t.name, t.attributes.getD [])) := by
    apply List.map_congr_left
    intro t ht
    rw [parseTagAttributes_eq t.attributes (hkeys t ht)]
  exact ⟨hmap, by simp⟩

/-- Witness for C12: the two `listener` tags of `demoTaggedRecord` give two entries, the
second one with an empty mapping. -/
theorem C12_getDefinition_tags_witness :
    demoTaggedDefinition.tags
      = (demoTaggedRecord.tags.getD []).map (fun t => (t.name, t.attributes.getD [])) ∧
    demoTaggedDefinition.tags.length = (demoTaggedRecord.tags.getD []).length :=
  C12_getDefinition_tags demoWorld demoState demoTaggedRecord demoTaggedDefinition rfl rfl
    (by decide)

/-- C13: in every world and state, a boolean is returned unchanged, and a string whose
first character is none of `@`, `%` and `!` (the empty string included) is returned
unchanged; in both cases no collaborator is called and the state is unchanged. -/
theorem C13_parseArgument_literal (w : World) (st : LoaderState) :
    (∀ b : Bool, _parseArgument w (.bool b) st = ⟨.ok (.bool b), st, []⟩) ∧
    (∀ s : Str, s.head? ≠ some '@' → s.head? ≠ some '%' → s.head? ≠ some '!' →
      _parseArgument w (.str s) st = ⟨.ok (.str s), st, []⟩) := by
  refine ⟨fun b => rfl, ?_⟩
  intro s h1 h2 h3
  cases s with
  | nil => rfl
  | cons c t =>
    have c1 : c ≠ '@' := fun h => h1 (by rw [h]; rfl)
    have c2 : c ≠ '%' := fun h => h2 (by rw [h]; rfl)
    have c3 : c ≠ '!' := fun h => h3 (by rw [h]; rfl)
    simp [_parseArgument, slice2_0_2, slice2_0_1, slice2_0_7, pure_run, c1, c2, c3]

/-- Witness for C13: the boolean `true`, the string `plain` and the empty string. -/
theorem C13_parseArgument_literal_witness :
    _parseArgument demoWorld (.bool true) demoState = ⟨.ok (.bool true), demoState, []⟩ ∧
    _parseArgument demoWorld (.str "plain".toList) demoState
      = ⟨.ok (.str "plain".toList), demoState, []⟩ ∧
    _parseArgument demoWorld (.str []) demoState = ⟨.ok (.str []), demoState, []⟩ :=
  ⟨(C13_parseArgument_literal demoWorld demoState).1 true,
    (C13_parseArgument_literal demoWorld demoState).2 "plain".toList (by decide) (by decide)
      (by decide),
    (C13_parseArgument_literal demoWorld demoState).2 [] (by decide) (by decide) (by decide)⟩

/-- C20: whenever the raw value of the service `id` is a string `s`, whatever its first
character (and also when it is empty), `_parseDefinition` succeeds, appends the alias
`id -> s` without its first character, builds no definition and calls no collaborator;
the sigil is never inspected. -/
theorem C20_parseDefinition_any_string (w : World) (st : LoaderState)
    (services : List (Str × RawService)) (id s : Str)
    (hget : getService services id = some (.str s)) :
    _parseDefinition w services id st
      = ⟨.ok (),
          { st with container :=
              { st.container with aliases := st.container.aliases ++ [(id, s.drop 1)] } },
          []⟩ := by
  simp [_parseDefinition, hget, setAlias, Container.setAlias, slice1_1]

/-- Witness for C20: the document `{mailer: "foo"}` registers the alias `mailer -> oo`. -/
theorem C20_parseDefinition_any_string_witness :
    _parseDefinition demoWorld [("mailer".toList, .str "foo".toList)] "mailer".toList demoState
      = ⟨.ok (),
          { demoState with container :=
              { demoState.container with
                aliases := demoState.container.aliases ++ [("mailer".toList, "oo".toList)] } },
          []⟩ :=
  C20_parseDefinition_any_string demoWorld demoState _ _ "foo".toList (by decide)


/-! ## The module path resolver: claims C15, C19 -/

/-- The legacy test `classObject.substr(0, 16) === "../node_modules/"` holds exactly when
the specifier begins with `../node_modules/`. -/
theorem substr2_legacy_iff (c : Str) : substr2 c 0 16 = legacyStart ↔ legacyStart <+: c := by
  simp only [substr2, List.drop_zero]
  constructor
  · intro h
    exact ⟨c.drop 16, by rw [← h, List.take_append_drop]⟩
  · rintro ⟨t, rfl⟩
    rfl

/-- The two existence checks: the second is made only when the first fails. -/
theorem existsEither_run (w : World) (p q : Str) (st : LoaderState) :
    existsEither w p q st
      = ⟨.ok (w.existsSync p || w.existsSync q), st,
          if w.existsSync p then [.existsSync p] else [.existsSync p, .existsSync q]⟩ := by
  unfold existsEither existsSync
  cases h : w.existsSync p <;>
    simp [bind_run, LoaderM.bind, emit, pure_run, LoaderM.pure, h]

/-- C15: let `c` be a specifier that is not absolute and `s` the specifier after removal
of a leading `../node_modules/`; let `B` be the container's default directory when one is
set (and not empty), and the directory of the current document otherwise.  If something
exists at `join(B, s) + ".js"` or at `join(B, s)`, then `_tryToGuessClassPath` returns
exactly `join(B, s)`, leaves the state alone, and its only collaborator calls are the one
or two existence checks: no package-resolution lookup is made. -/
theorem C15_tryToGuessClassPath_existing_file (w : World) (st : LoaderState) (c B : Str)
    (habs : w.isAbsolute c = false)
    (hB : (st.container.defaultDir = some B ∧ B ≠ []) ∨
      ((st.container.defaultDir = none ∨ st.container.defaultDir = some []) ∧
        B = w.dirname st.filePath))
    (hex : w.existsSync (w.join [B, if legacyStart <+: c then c.drop 16 else c] ++ ".js".toList)
        = true ∨
      w.existsSync (w.join [B, if legacyStart <+: c then c.drop 16 else c]) = true) :
    _tryToGuessClassPath w c st
      = ⟨.ok (w.join [B, if legacyStart <+: c then c.drop 16 else c]), st,
          if w.existsSync (w.join [B, if legacyStart <+: c then c.drop 16 else c] ++ ".js".toList)
          then [.existsSync (w.join [B, if legacyStart <+: c then c.drop 16 else c] ++ ".js".toList)]
          else [.existsSync (w.join [B, if legacyStart <+: c then c.drop 16 else c] ++ ".js".toList),
            .existsSync (w.join [B, if legacyStart <+: c then c.drop 16 else c])]⟩ := by
  have hfrom : fromDirectory w st = B := by
    unfold fromDirectory
    rcases hB with ⟨h1, h2⟩ | ⟨h1 | h1, h2⟩
    · rw [h1]
      cases B with
      | nil => exact absurd rfl h2
      | cons x xs => rfl
    · rw [h1, h2]
    · rw [h1, h2]
      rfl
  have hstrip : (if substr2 c 0 16 = legacyStart then substr1 c 16 else c)
      = (if legacyStart <+: c then c.drop 16 else c) := by
    by_cases h : legacyStart <+: c
    · rw [if_pos h, if_pos ((substr2_legacy_iff c).2 h)]
      rfl
    · rw [if_neg h, if_neg (fun h1 => h ((substr2_legacy_iff c).1 h1))]
  generalize (if legacyStart <+: c then c.drop 16 else c) = s at hex hstrip ⊢
  have hfound : (w.existsSync (w.join [B, s] ++ ['.', 'j', 's'])
      || w.existsSync (w.join [B, s])) = true := by
    rcases hex with h | h
    · simpa [String.toList] using Or.inl h
    · simp [h]
  unfold _tryToGuessClassPath
  simp only [habs, Bool.false_eq_true, if_false, hstrip]
  simp only [bind_run, LoaderM.bind, getState, existsEither_run, hfrom, hfound, if_true,
    pure_run, List.nil_append, List.append_nil, String.toList]

/-- Witness for C15: in `demoWorld` the file `/app/config/App.js` exists, so the legacy
specifier `../node_modules/App` resolves to `/app/config/App` after one existence check. -/
theorem C15_tryToGuessClassPath_existing_file_witness :
    _tryToGuessClassPath demoWorld "../node_modules/App".toList demoState
      = ⟨.ok "/app/config/App".toList, demoState,
          [.existsSync "/app/config/App.js".toList]⟩ :=
  C15_tryToGuessClassPath_existing_file demoWorld demoState "../node_modules/App".toList
    "/app/config".toList rfl (Or.inr ⟨Or.inl rfl, rfl⟩) (Or.inl rfl)

/-- C19: for every specifier `X` that is not absolute and does not begin with
`../node_modules/`, in every world (where `../node_modules/` + `X`, which starts with a
dot, is not absolute) and every state, `_tryToGuessClassPath("../node_modules/" + X)` and
`_tryToGuessClassPath(X)` have the same outcome: the same result or error, the same
collaborator calls and the same state.  All decisions after the stripping, the
relative-versus-bare one included, are taken on `X`. -/
theorem C19_tryToGuessClassPath_legacy_transparent (w : World) (st : LoaderState) (X : Str)
    (hX : w.isAbsolute X = false) (hlegacy : ¬ legacyStart <+: X)
    (hdot : w.isAbsolute (legacyStart ++ X) = false) :
    _tryToGuessClassPath w (legacyStart ++ X) st = _tryToGuessClassPath w X st := by
  have h1 : substr2 (legacyStart ++ X) 0 16 = legacyStart :=
    (substr2_legacy_iff _).2 ⟨X, rfl⟩
  have h2 : substr1 (legacyStart ++ X) 16 = X := rfl
  have h3 : ¬ substr2 X 0 16 = legacyStart := fun h => hlegacy ((substr2_legacy_iff X).1 h)
  unfold _tryToGuessClassPath
  simp only [hX, hdot, h1, h2, h3, Bool.false_eq_true, if_false, if_true]

/-- Witness for C19: the bare module name `lodash`, found neither on disk nor by the
package resolution, fails the same way with and without the legacy start. -/
theorem C19_tryToGuessClassPath_legacy_transparent_witness :
    _tryToGuessClassPath demoWorld ("../node_modules/".toList ++ "lodash".toList) demoState
      = _tryToGuessClassPath demoWorld "lodash".toList demoState :=
  C19_tryToGuessClassPath_legacy_transparent demoWorld demoState "lodash".toList rfl
    (by decide) rfl


/-! ## Candidate package directories: claim C17 -/

theorem normalizeSegments_fold_plain (allowAboveRoot : Bool) (segments acc : List Str)
    (h : ∀ segment ∈ segments, PlainSegment segment) :
    segments.foldl (normalizeStep allowAboveRoot) acc = acc ++ segments := by
  induction segments generalizing acc with
  | nil => simp
  | cons x xs ih =>
    obtain ⟨h1, _, h3, h4⟩ := h x (List.mem_cons_self _ _)
    rw [List.foldl_cons]
    simp only [normalizeStep, h1, h3, h4, or_self, if_false]
    rw [ih (acc ++ [x]) (fun y hy => h y (List.mem_cons_of_mem _ hy))]
    simp

/-- Plain segments are left as they are by the segment loop. -/
theorem normalizeSegments_plain (allowAboveRoot : Bool) (segments : List Str)
    (h : ∀ segment ∈ segments, PlainSegment segment) :
    normalizeSegments allowAboveRoot segments = segments := by
  unfold normalizeSegments
  rw [normalizeSegments_fold_plain allowAboveRoot segments [] h]
  rfl

theorem intercalate_singleton (x : Str) : ['/'].intercalate [x] = x := by
  simp [List.intercalate]

theorem intercalate_cons_cons (x y : Str) (rest : List Str) :
    ['/'].intercalate (x :: y :: rest) = x ++ '/' :: ['/'].intercalate (y :: rest) := by
  simp [List.intercalate]

/-- Plain segments joined with `/` give a non-empty path that neither begins nor ends
with `/`. -/
theorem intercalate_plain (segments : List Str) (hne : segments ≠ [])
    (h : ∀ segment ∈ segments, PlainSegment segment) :
    ['/'].intercalate segments ≠ [] ∧
    (['/'].intercalate segments).head? ≠ some '/' ∧
    (['/'].intercalate segments).getLast? ≠ some '/' := by
  induction segments with
  | nil => exact absurd rfl hne
  | cons x xs ih =>
    obtain ⟨h1, h2, _, _⟩ := h x (List.mem_cons_self _ _)
    obtain ⟨c, cs, rfl⟩ := List.exists_cons_of_ne_nil h1
    have hc : c ≠ '/' := fun e => h2 (e ▸ List.mem_cons_self _ _)
    cases xs with
    | nil =>
      rw [intercalate_singleton]
      refine ⟨by simp, by simpa using hc, ?_⟩
      intro hlast
      exact h2 (List.mem_of_getLast?_eq_some hlast)
    | cons y ys =>
      obtain ⟨i1, _, i3⟩ := ih (by simp) (fun z hz => h z (List.mem_cons_of_mem _ hz))
      rw [intercalate_cons_cons]
      refine ⟨by simp, by simpa using hc, ?_⟩
      rw [show (c :: cs) ++ '/' :: ['/'].intercalate (y :: ys)
          = ((c :: cs) ++ ['/']) ++ ['/'].intercalate (y :: ys) by simp]
      rw [List.getLast?_append_of_ne_nil _ i1]
      exact i3

/-- Normalising a path made of plain segments changes nothing. -/
theorem posixNormalize_plain (segments : List Str) (hne : segments ≠ [])
    (h : ∀ segment ∈ segments, PlainSegment segment) :
    posixNormalize (['/'].intercalate segments) = ['/'].intercalate segments := by
  obtain ⟨h1, h2, h3⟩ := intercalate_plain segments hne h
  have hsplit : (['/'].intercalate segments).splitOn '/' = segments :=
    List.splitOn_intercalate segments '/' (fun l hl => (h l hl).2.1) hne
  unfold posixNormalize
  simp only [h1, h2, h3, if_false, decide_False, hsplit, Bool.not_false, Bool.false_eq_true,
    normalizeSegments_plain true segments h, List.nil_append, List.append_nil]

/-- Joining an empty first part and plain segments gives the segments joined by `/`. -/
theorem posixJoin_plain (segments : List Str) (hne : segments ≠ [])
    (h : ∀ segment ∈ segments, PlainSegment segment) :
    posixJoin ([] :: segments) = ['/'].intercalate segments := by
  have hfilter : ([] :: segments).filter (fun part => !part.isEmpty) = segments := by
    rw [List.filter_cons_of_neg (by simp)]
    apply List.filter_eq_self.2
    intro s hs
    have := (h s hs).1
    cases s with
    | nil => exact absurd rfl this
    | cons c cs => rfl
  unfold posixJoin
  rw [hfilter, if_neg hne, posixNormalize_plain segments hne h]

theorem plainSegment_nodeModules : PlainSegment nodeModules := by
  refine ⟨by decide, by decide, by decide, by decide⟩


/-- C17, the claim as stated fails: for the directory `/a/b` the candidate list starts
with the directory `/a/b` itself, an entry that is not an ancestor directory with
`node_modules` appended. -/
theorem C17_first_candidate_is_the_directory :
    _collectPossiblePaths posixWorld "/a/b".toList
      = ["/a/b".toList, "/a/b/node_modules".toList, "/a/node_modules".toList,
          "/node_modules".toList] ∧
    ¬ (∀ p ∈ _collectPossiblePaths posixWorld "/a/b".toList, "/node_modules".toList <:+ p) := by
  refine ⟨by decide, fun h => ?_⟩
  have h1 := h "/a/b".toList (by decide)
  exact absurd h1 (by decide)

/-- C17, amended: on a POSIX system, for every absolute directory `d` made of the plain
segments `s1 .. sn` (`n ≥ 1`), the list built by `_collectPossiblePaths(d)` is `d` itself
followed by the ancestor directories of `d` from full depth down to the root, each with
`node_modules` appended: `/s1/../sn/node_modules`, ..., `/s1/node_modules`,
`/node_modules`, in that order, one entry per depth. -/
theorem C17_collectPossiblePaths_posix (w : World) (hsep : w.sep = '/')
    (hjoin : w.join = posixJoin) (segments : List Str) (hne : segments ≠ [])
    (hplain : ∀ segment ∈ segments, PlainSegment segment) :
    _collectPossiblePaths w ('/' :: ['/'].intercalate segments)
      = ('/' :: ['/'].intercalate segments) ::
        (List.range (segments.length + 1)).reverse.map (fun k =>
          '/' :: ['/'].intercalate (segments.take k ++ [nodeModules])) := by
  have hd : '/' :: ['/'].intercalate segments = ['/'].intercalate ([] :: segments) := by
    cases segments with
    | nil => exact absurd rfl hne
    | cons y rest => rw [intercalate_cons_cons]; rfl
  have hsplit : ('/' :: ['/'].intercalate segments).splitOn '/' = [] :: segments := by
    rw [hd]
    apply List.splitOn_intercalate
    · intro l hl
      rcases List.mem_cons.1 hl with rfl | hl
      · simp
      · exact (hplain l hl).2.1
    · simp
  unfold _collectPossiblePaths
  simp only [hsep, hsplit, hjoin, List.length_cons, List.singleton_append]
  congr 1
  apply List.map_congr_left
  intro k _
  have hslice : slice2 ([] :: segments) 0 ((k : Int) + 1) = [] :: segments.take k := by
    have := slice2_natCast ([] :: segments) 0 (k + 1)
    simpa using this
  rw [hslice]
  have hplain1 : ∀ segment ∈ segments.take k ++ [nodeModules], PlainSegment segment := by
    intro s hs
    rcases List.mem_append.1 hs with h1 | h1
    · exact hplain s (List.mem_of_mem_take h1)
    · rw [List.mem_singleton.1 h1]
      exact plainSegment_nodeModules
  have := posixJoin_plain (segments.take k ++ [nodeModules]) (by simp) hplain1
  rw [← this]
  rfl

/-- Witness for C17: the directory `/a/b` on `posixWorld`. -/
theorem C17_collectPossiblePaths_posix_witness :
    _collectPossiblePaths posixWorld ('/' :: ['/'].intercalate ["a".toList, "b".toList])
      = ('/' :: ['/'].intercalate ["a".toList, "b".toList]) ::
        (List.range 3).reverse.map (fun k =>
          '/' :: ['/'].intercalate (["a".toList, "b".toList].take k ++ [nodeModules])) :=
  C17_collectPossiblePaths_posix posixWorld rfl rfl ["a".toList, "b".toList] (by decide)
    (by
      intro s hs
      simp only [List.mem_cons, List.mem_singleton, List.not_mem_nil, or_false] at hs
      rcases hs with rfl | rfl <;> exact ⟨by decide, by decide, by decide, by decide⟩)


/-! ## The class exporter lookup: claim C14 -/

/-- When `m` returns a value, `m >>= f` gives what `f` gives from the state `m` left. -/
theorem bind_result_of_ok {α β : Type} (m : LoaderM α) (f : α → LoaderM β) (s : LoaderState)
    (a : α) (h : (m s).result = .ok a) :
    ((m >>= f) s).result = (f a (m s).state).result := by
  rw [bind_run]
  unfold LoaderM.bind
  rcases hms : m s with ⟨r, s1, t1⟩
  rw [hms] at h
  simp only at h
  subst h
  rfl

/-- What the class exporter lookup returns once the specifier has resolved and the module
has loaded: the three property reads on the module object, combined by `||`. -/
theorem requireClassNameFromPath_value (w : World) (st : LoaderState) (c : Str)
    (mainClassName : Option Str) (classPath : Str) (exportedModule : ModuleObject)
    (hpath : (_tryToGuessClassPath w c st).result = .ok classPath)
    (hreq : w.require classPath = .ok exportedModule) :
    (_requireClassNameFromPath w (some c) mainClassName st).result
      = .ok (((exportedModule.get (mainClassName.getD "undefined".toList)).or
          (exportedModule.get "default".toList)).or (exportedModule.get (w.basename c))) := by
  unfold _requireClassNameFromPath
  simp only
  rw [bind_result_of_ok _ _ _ _ hpath]
  simp only [bind_run, LoaderM.bind, emit, hreq, liftExcept, LoaderM.pure, pure_run]
  rfl

/-- A name the module object does not inherit is read from the own exports. -/
theorem get_eq_getProp (m : ModuleObject) (key : Str) (h : m.inherited key = .undefined) :
    m.get key = getProp m.own key := by
  unfold ModuleObject.get getProp
  cases m.own.find? (fun e => e.1 == key) with
  | none => exact h
  | some e => rfl

/-- Reading a name that is not exported gives `undefined`. -/
theorem getProp_of_not_hasExport (o : List (Str × JSVal)) (key : Str)
    (h : hasExport o key = false) : getProp o key = .undefined := by
  unfold hasExport at h
  unfold getProp
  have hnone : o.find? (fun e => e.1 == key) = none := by
    rw [List.find?_eq_none]
    intro x hx
    have := (List.any_eq_false.1 h) x hx
    simpa using this
  rw [hnone]

/-- The lookup reads inherited members too: in `demoWorld` the module of `App` exports
only `default`, and with the preferred name `constructor` the lookup returns the built-in
constructor the module object inherits, not the default export. -/
theorem requireClassNameFromPath_inherited_member :
    (_requireClassNameFromPath demoWorld (some "App".toList) (some "constructor".toList)
      demoState).result = .ok (.obj 1000) := by
  decide

/-- C14, the claim as stated fails: in `nullDefaultWorld` the module of the specifier
`App` has a present default export (`null`) and an export `App`; no preferred name is
supplied.  The loader returns the export `App`, not the present default export. -/
theorem C14_present_default_export_loses :
    hasExport [("default".toList, .null), ("App".toList, .obj 7)] "default".toList = true ∧
    exportBySpec [("default".toList, .null), ("App".toList, .obj 7)] none "App".toList = .null ∧
    (_requireClassNameFromPath nullDefaultWorld (some "App".toList) none demoState).result
      = .ok (.obj 7) ∧
    (_requireClassNameFromPath nullDefaultWorld (some "App".toList) none demoState).result
      ≠ .ok (exportBySpec [("default".toList, .null), ("App".toList, .obj 7)] none
          (nullDefaultWorld.basename "App".toList)) := by
  refine ⟨by decide, by decide, by decide, ?_⟩
  decide

/-- C14, amended: let the specifier `c` resolve to `classPath` and that module load as
the object `exportedModule`; let none of the names looked up (the preferred name,
`default`, `basename(c)`) be a member the module object inherits from its prototype, and,
when no preferred name is supplied, let the module have no export named `undefined`.
Then `_requireClassNameFromPath` returns the export with the preferred name when one was
supplied and its value is truthy, otherwise the default export when its value is truthy,
otherwise the export named `basename(c)` (absent when there is none).  So a truthy
preferred-name export wins over the default export, and a truthy default export wins over
the basename export. -/
theorem C14_requireClassNameFromPath_first_truthy (w : World) (st : LoaderState) (c : Str)
    (mainClassName : Option Str) (classPath : Str) (exportedModule : ModuleObject)
    (hpath : (_tryToGuessClassPath w c st).result = .ok classPath)
    (hreq : w.require classPath = .ok exportedModule)
    (hown : ∀ key ∈ [mainClassName.getD "undefined".toList, "default".toList, w.basename c],
      exportedModule.inherited key = .undefined)
    (hund : mainClassName = none → hasExport exportedModule.own "undefined".toList = false) :
    (_requireClassNameFromPath w (some c) mainClassName st).result
      = .ok (firstTruthyExport exportedModule.own mainClassName (w.basename c)) := by
  rw [requireClassNameFromPath_value w st c mainClassName classPath exportedModule hpath hreq]
  rw [get_eq_getProp _ _ (hown _ (by simp)), get_eq_getProp _ _ (hown _ (by simp)),
    get_eq_getProp _ _ (hown _ (by simp))]
  congr 1
  cases mainClassName with
  | some name =>
    simp only [Option.getD_some, firstTruthyExport, JSVal.or]
    by_cases h1 : (getProp exportedModule.own name).truthy = true
    · simp [h1]
    · by_cases h2 : (getProp exportedModule.own "default".toList).truthy = true
      · simp [h1, h2]
      · simp [h1, h2]
  | none =>
    have hu := getProp_of_not_hasExport _ _ (hund rfl)
    simp only [Option.getD_none, firstTruthyExport, JSVal.or, hu, JSVal.truthy,
      Bool.false_eq_true, if_false]

/-- Witness for C14: in `demoWorld` the module of `App` is the plain object `{default}`,
no preferred name is supplied, and none of `undefined`, `default`, `App` is a member of
`Object.prototype`; the default export is returned. -/
theorem C14_requireClassNameFromPath_first_truthy_witness :
    (_requireClassNameFromPath demoWorld (some "App".toList) none demoState).result
      = .ok (firstTruthyExport [("default".toList, .obj 1)] none
          (demoWorld.basename "App".toList)) :=
  C14_requireClassNameFromPath_first_truthy demoWorld demoState "App".toList none
    "/app/config/App".toList (plainModule [("default".toList, .obj 1)]) (by decide) rfl
    (by decide) (by decide)


/-! ## Failures during the services pass: claim C16 -/

theorem bind_state_of_ok {α β : Type} (m : LoaderM α) (f : α → LoaderM β) (s : LoaderState)
    (a : α) (h : (m s).result = .ok a) :
    ((m >>= f) s).state = (f a (m s).state).state := by
  rw [bind_run]
  unfold LoaderM.bind
  rcases hms : m s with ⟨r, s1, t1⟩
  rw [hms] at h
  simp only at h
  subst h
  rfl

theorem bind_trace_of_ok {α β : Type} (m : LoaderM α) (f : α → LoaderM β) (s : LoaderState)
    (a : α) (h : (m s).result = .ok a) :
    ((m >>= f) s).trace = (m s).trace ++ (f a (m s).state).trace := by
  rw [bind_run]
  unfold LoaderM.bind
  rcases hms : m s with ⟨r, s1, t1⟩
  rw [hms] at h
  simp only at h
  subst h
  rfl

theorem bind_of_error {α β : Type} (m : LoaderM α) (f : α → LoaderM β) (s : LoaderState)
    (e : Err) (h : (m s).result = .error e) :
    ((m >>= f) s).result = .error e ∧ ((m >>= f) s).state = (m s).state ∧
    ((m >>= f) s).trace = (m s).trace := by
  rw [bind_run]
  unfold LoaderM.bind
  rcases hms : m s with ⟨r, s1, t1⟩
  rw [hms] at h
  simp only at h
  subst h
  exact ⟨rfl, rfl, rfl⟩

theorem forM_nil_run {α : Type} (f : α → LoaderM PUnit) (s : LoaderState) :
    List.forM [] f s = ⟨.ok ⟨⟩, s, []⟩ := rfl

/-- A loop that fails at the element after `l1` stops there: the error is propagated, the
state is the one the failing step left, and the collaborator calls are those of the steps
for `l1` followed by those of the failing step; nothing is run for `l2`. -/
theorem forM_fail_after {α : Type} (f : α → LoaderM PUnit) (l1 : List α) (a : α)
    (l2 : List α) (s : LoaderState) (e : Err)
    (hpre : (List.forM l1 f s).result = .ok ⟨⟩)
    (hfail : (f a (List.forM l1 f s).state).result = .error e) :
    (List.forM (l1 ++ a :: l2) f s).result = .error e ∧
    (List.forM (l1 ++ a :: l2) f s).state = (f a (List.forM l1 f s).state).state ∧
    (List.forM (l1 ++ a :: l2) f s).trace
      = (List.forM l1 f s).trace ++ (f a (List.forM l1 f s).state).trace := by
  induction l1 generalizing s with
  | nil =>
    rw [forM_nil_run] at hfail
    rw [List.nil_append, forM_cons_run, forM_nil_run]
    exact bind_of_error _ _ _ _ hfail
  | cons x l1 ih =>
    rw [forM_cons_run] at hpre hfail
    obtain ⟨u, hx, hrest⟩ := bind_result_ok _ _ _ _ hpre
    rw [bind_state_of_ok _ _ _ _ hx] at hfail
    obtain ⟨i1, i2, i3⟩ := ih _ hrest hfail
    rw [List.cons_append, forM_cons_run, bind_result_of_ok _ _ _ _ hx,
      bind_state_of_ok _ _ _ _ hx, bind_trace_of_ok _ _ _ _ hx, forM_cons_run,
      bind_state_of_ok _ _ _ _ hx, bind_trace_of_ok _ _ _ _ hx]
    exact ⟨i1, i2, by rw [i3, List.append_assoc]⟩

theorem forM_congr_run {α : Type} (f g : α → LoaderM PUnit) (l : List α)
    (h : ∀ x ∈ l, f x = g x) : List.forM l f = List.forM l g := by
  induction l with
  | nil => rfl
  | cons x l ih =>
    rw [forM_cons_run, forM_cons_run, h x (List.mem_cons_self _ _),
      ih (fun y hy => h y (List.mem_cons_of_mem _ hy))]

/-- Looking a name of the first part of a service map up only looks at that part. -/
theorem getService_append (pre rest : List (Str × RawService)) (id : Str)
    (h : id ∈ pre.map Prod.fst) : getService (pre ++ rest) id = getService pre id := by
  induction pre with
  | nil => simp at h
  | cons x pre ih =>
    by_cases hx : x.1 = id
    · simp [getService, List.find?_cons, hx]
    · have hmem : id ∈ pre.map Prod.fst := by
        rcases List.mem_cons.1 h with h1 | h1
        · exact absurd h1.symm hx
        · exact h1
      have := ih hmem
      simpa [getService, List.find?_cons, hx] using this

theorem readOnly_getFactoryDefinition (w : World) (service : ServiceRecord)
    (factory : FactorySpec) : ReadOnly (_getFactoryDefinition w service factory) := by
  unfold _getFactoryDefinition
  cases factory.class with
  | none => exact readOnly_throw _
  | some cls =>
    simp only
    refine readOnly_ite _ _ _ ?_ ?_
    · exact readOnly_bind _ _ (readOnly_pure _) (fun _ =>
        readOnly_bind _ _ (readOnly_getParsedArguments w _) (fun _ => readOnly_pure _))
    · exact readOnly_bind _ _ (readOnly_requireClassNameFromPath w _ _) (fun _ =>
        readOnly_bind _ _ (readOnly_pure _) (fun _ =>
          readOnly_bind _ _ (readOnly_getParsedArguments w _) (fun _ => readOnly_pure _)))

theorem readOnly_getDefinition (w : World) (service : ServiceRecord) :
    ReadOnly (_getDefinition w service) := by
  unfold _getDefinition
  refine readOnly_ite _ _ _ ?_ (readOnly_pure _)
  refine readOnly_bind _ _ (readOnly_requireClassNameFromPath w _ _) (fun _ => ?_)
  refine readOnly_bind _ _ ?_ (fun _ => ?_)
  · unfold _parseArguments
    exact readOnly_bind _ _ (readOnly_getParsedArguments w _) (fun _ =>
      readOnly_ite _ _ _ (readOnly_pure _) (readOnly_pure _))
  refine readOnly_bind _ _ ?_ (fun _ => ?_)
  · exact readOnly_foldlM _ (fun _ _ =>
      readOnly_bind _ _ (readOnly_parseArgument w _) (fun _ => readOnly_pure _)) _ _
  refine readOnly_bind _ _ ?_ (fun _ => readOnly_pure _)
  exact readOnly_foldlM _ (fun _ _ =>
    readOnly_bind _ _ (readOnly_getParsedArguments w _) (fun _ => readOnly_pure _)) _ _

/-- Compiling and then registering: a failure leaves the state alone, a success adds one
registration. -/
theorem compile_then_register (m : LoaderM Definition) (hm : ReadOnly m) (id : Str)
    (s : LoaderState) :
    (∀ e, ((m >>= fun d => setDefinition id d) s).result = .error e →
      ((m >>= fun d => setDefinition id d) s).state = s) ∧
    (((m >>= fun d => setDefinition id d) s).result = .ok () →
      registrations ((m >>= fun d => setDefinition id d) s).state = registrations s + 1) := by
  have hs := hm s
  rw [bind_run]
  unfold LoaderM.bind
  rcases hms : m s with ⟨r, s1, t1⟩
  rw [hms] at hs
  simp only at hs
  subst hs
  cases r with
  | error e => exact ⟨fun _ _ => rfl, fun h => by simp at h⟩
  | ok d =>
    refine ⟨fun e h => by simp [setDefinition] at h, fun _ => ?_⟩
    simp [setDefinition, Container.setDefinition, registrations]
    omega

/-- One record: a failure leaves the state alone, a success adds one registration. -/
theorem parseDefinition_step (w : World) (services : List (Str × RawService)) (id : Str)
    (s : LoaderState) :
    (∀ e, (_parseDefinition w services id s).result = .error e →
      (_parseDefinition w services id s).state = s) ∧
    ((_parseDefinition w services id s).result = .ok () →
      registrations (_parseDefinition w services id s).state = registrations s + 1) := by
  unfold _parseDefinition
  rcases getService services id with _ | service | service
  · exact ⟨fun _ _ => rfl, fun h => by simp [LoaderM.throw] at h⟩
  · refine ⟨fun e h => by simp [setAlias] at h, fun _ => ?_⟩
    simp [setAlias, Container.setAlias, registrations]
    omega
  · simp only
    cases service.factory with
    | some factory =>
      exact compile_then_register _ (readOnly_getFactoryDefinition w service factory) id s
    | none => exact compile_then_register _ (readOnly_getDefinition w service) id s

/-- A successful loop over `ids` adds one registration per name. -/
theorem forM_parseDefinition_registrations (w : World) (services : List (Str × RawService))
    (ids : List Str) (s : LoaderState)
    (h : (List.forM ids (fun id => _parseDefinition w services id) s).result = .ok ()) :
    registrations (List.forM ids (fun id => _parseDefinition w services id) s).state
      = registrations s + ids.length := by
  induction ids generalizing s with
  | nil => rfl
  | cons id ids ih =>
    rw [forM_cons_run] at h ⊢
    obtain ⟨u, hx, hrest⟩ := bind_result_ok _ _ _ _ h
    rw [bind_state_of_ok _ _ _ _ hx, ih _ hrest, (parseDefinition_step w services id s).2 hx,
      List.length_cons]
    omega

/-- C16, the claim as stated fails: in the service map `{a: "@b", bad: {class:
"Missing"}}` the record `bad` does not compile; the failure reaches the caller, but the
alias `a -> b` registered before it stays in the alias table, which is no longer the
table the pass started with. -/
theorem C16_failure_leaves_earlier_alias :
    (_parseDefinitions demoWorld (some demoFailingServices) demoState).result
      = .error (.moduleNotFound "Missing".toList) ∧
    (_parseDefinitions demoWorld (some demoFailingServices) demoState).state.container.aliases
      = [("a".toList, "b".toList)] ∧
    (_parseDefinitions demoWorld (some demoFailingServices) demoState).state.container.aliases
      ≠ demoState.container.aliases := by
  refine ⟨rfl, rfl, ?_⟩
  decide

/-- C16, amended: when the records before `id` compile and the record `id` fails with the
error `e`, `_parseDefinitions` fails with `e`: the failure reaches the caller.  The
records after the failing one are not compiled: the collaborator calls made are those of
the preceding records followed by those of the failing record, whatever records follow.
The state left is the state after the preceding records alone: their registrations stay
in the alias and definition tables, one per preceding record, and nothing is rolled
back. -/
theorem C16_parseDefinitions_failure_keeps_earlier (w : World) (st : LoaderState)
    (pre post : List (Str × RawService)) (id : Str) (r : RawService) (e : Err)
    (hpre : (_parseDefinitions w (some pre) st).result = .ok ())
    (hfail : (_parseDefinition w (pre ++ (id, r) :: post) id
      (_parseDefinitions w (some pre) st).state).result = .error e) :
    (_parseDefinitions w (some (pre ++ (id, r) :: post)) st).result = .error e ∧
    (_parseDefinitions w (some (pre ++ (id, r) :: post)) st).trace
      = (_parseDefinitions w (some pre) st).trace ++
        (_parseDefinition w (pre ++ (id, r) :: post) id
          (_parseDefinitions w (some pre) st).state).trace ∧
    (_parseDefinitions w (some (pre ++ (id, r) :: post)) st).state
      = (_parseDefinitions w (some pre) st).state ∧
    registrations (_parseDefinitions w (some (pre ++ (id, r) :: post)) st).state
      = registrations st + pre.length := by
  have hcongr : List.forM (pre.map Prod.fst)
        (fun i => _parseDefinition w (pre ++ (id, r) :: post) i)
      = List.forM (pre.map Prod.fst) (fun i => _parseDefinition w pre i) := by
    apply forM_congr_run
    intro i hi
    simp only [_parseDefinition, getService_append pre _ i hi]
  have hreg := forM_parseDefinition_registrations w pre (pre.map Prod.fst) st hpre
  simp only [_parseDefinitions, Option.getD_some, List.map_append, List.map_cons] at hpre hfail ⊢
  rw [← hcongr] at hpre hfail hreg ⊢
  obtain ⟨h1, h2, h4⟩ :=
    forM_fail_after _ (pre.map Prod.fst) id (post.map Prod.fst) st e hpre hfail
  have h3 := (parseDefinition_step w (pre ++ (id, r) :: post) id _).1 e hfail
  rw [h3] at h2
  refine ⟨h1, h4, h2, ?_⟩
  rw [h2, hreg, List.length_map]

/-- Witness for C16: in the service map `demoFailingServicesLater` the alias `a` precedes
the failing record `bad` and the record `later` follows it; the alias stays registered and
the only collaborator calls are those made for `bad`. -/
theorem C16_parseDefinitions_failure_keeps_earlier_witness :
    (_parseDefinitions demoWorld (some demoFailingServicesLater) demoState).result
      = .error (.moduleNotFound "Missing".toList) ∧
    (_parseDefinitions demoWorld (some demoFailingServicesLater) demoState).trace
      = (_parseDefinitions demoWorld (some [("a".toList, .str "@b".toList)]) demoState).trace ++
        (_parseDefinition demoWorld demoFailingServicesLater "bad".toList
          (_parseDefinitions demoWorld (some [("a".toList, .str "@b".toList)])
            demoState).state).trace ∧
    (_parseDefinitions demoWorld (some demoFailingServicesLater) demoState).state
      = (_parseDefinitions demoWorld (some [("a".toList, .str "@b".toList)]) demoState).state ∧
    registrations (_parseDefinitions demoWorld (some demoFailingServicesLater) demoState).state
      = registrations demoState + 1 :=
  C16_parseDefinitions_failure_keeps_earlier demoWorld demoState
    [("a".toList, .str "@b".toList)]
    [("later".toList, .record { emptyRecord with «class» := some "App".toList })]
    "bad".toList (.record { emptyRecord with «class» := some "Missing".toList })
    (.moduleNotFound "Missing".toList) rfl rfl


/-! ## Implementation kinds: claim C18 -/

/-- The shape of every definition that `_getFactoryDefinition` returns: a fresh definition
without implementation object, with the record's `shared` flag, the parsed arguments, and
a factory made of the record's factory method and of an object that is a reference when
the factory class specifier contains `@` and the value of the class exporter lookup
otherwise. -/
theorem getFactoryDefinition_shape (w : World) (st : LoaderState) (service : ServiceRecord)
    (factory : FactorySpec) (d : Definition)
    (hret : (_getFactoryDefinition w service factory st).result = .ok d) :
    ∃ cls object args,
      factory.class = some cls ∧
      (includes cls '@' = true → object = .reference ⟨cls.drop 1, false⟩) ∧
      (includes cls '@' = false →
        ∃ v, (_requireClassNameFromPath w (some cls) none st).result = .ok v ∧
          object = .cls v) ∧
      d = { Definition.new .undefined with
        shared := service.shared
        factory := some (object, factory.method)
        args := args } := by
  unfold _getFactoryDefinition at hret
  cases hcls : factory.class with
  | none =>
    rw [hcls] at hret
    simp [LoaderM.throw] at hret
  | some cls =>
    rw [hcls] at hret
    simp only at hret
    split at hret
    · rename_i hinc
      obtain ⟨object, hobj, h1⟩ := bind_result_ok _ _ _ _ hret
      obtain ⟨args, _, h2⟩ := bind_result_ok _ _ _ _ h1
      have hobj1 := pure_result_ok _ _ _ hobj
      refine ⟨cls, object, args, rfl, fun _ => ?_, fun hn => ?_, (pure_result_ok _ _ _ h2).symm⟩
      · rw [← hobj1, slice1_1]
        rfl
      · rw [hinc] at hn
        exact absurd hn (by decide)
    · rename_i hinc
      obtain ⟨c, hc, h0⟩ := bind_result_ok _ _ _ _ hret
      obtain ⟨object, hobj, h1⟩ := bind_result_ok _ _ _ _ h0
      obtain ⟨args, _, h2⟩ := bind_result_ok _ _ _ _ h1
      have hobj1 := pure_result_ok _ _ _ hobj
      refine ⟨cls, object, args, rfl, fun hy => absurd hy hinc, fun _ => ⟨c, hc, hobj1.symm⟩,
        (pure_result_ok _ _ _ h2).symm⟩

/-- C18, the claim as stated fails: in `emptyModuleWorld` the module of the specifier
`App` exports nothing; the record `{class: "App"}` is not synthetic and compiles to a
definition that has neither a class-backed implementation nor a factory. -/
theorem C18_definition_without_implementation :
    ({ emptyRecord with «class» := some "App".toList } : ServiceRecord).synthetic.truthy = false ∧
    ∃ d : Definition,
      (_getDefinition emptyModuleWorld { emptyRecord with «class» := some "App".toList }
        demoState).result = .ok d ∧
      d.classBacked = false ∧ d.factoryBacked = false :=
  ⟨rfl, _, rfl, rfl, rfl⟩

/-- C18, amended: let `d` be the definition compiled for a record, by
`_getFactoryDefinition` when the record declares a factory and by `_getDefinition` when it
declares none and is not synthetic.  Then `d` never has both implementation kinds.  With
a factory (whatever `class` or `synthetic` the record also declares) `d` has no
class-backed implementation, and its factory is the record's factory method together with
an object that is a service reference when the factory class specifier contains `@` and
the value of the class exporter lookup otherwise: `d` is factory-backed exactly when that
object is present (a reference, or a truthy lookup value) and the method is a non-empty
name.  Without a factory `d` has no factory, and its implementation object is the value
the class exporter lookup returned: `d` is class-backed exactly when that value is truthy,
and has no implementation at all otherwise. -/
theorem C18_implementation_kinds (w : World) (st : LoaderState) (service : ServiceRecord)
    (d : Definition)
    (h : (∃ factory, service.factory = some factory ∧
          (_getFactoryDefinition w service factory st).result = .ok d) ∨
        (service.factory = none ∧ service.synthetic.truthy = false ∧
          (_getDefinition w service st).result = .ok d)) :
    ¬ (d.classBacked = true ∧ d.factoryBacked = true) ∧
    (∀ factory, service.factory = some factory →
      d.classBacked = false ∧
      ∃ cls object, factory.class = some cls ∧ d.factory = some (object, factory.method) ∧
        (includes cls '@' = true → object = .reference ⟨cls.drop 1, false⟩) ∧
        (includes cls '@' = false →
          ∃ v, (_requireClassNameFromPath w (some cls) none st).result = .ok v ∧
            object = .cls v) ∧
        d.factoryBacked = (object.present && factory.method.isName)) ∧
    (service.factory = none → d.factoryBacked = false ∧
      ∃ v, (_requireClassNameFromPath w service.class service.main st).result = .ok v ∧
        d.Object = v ∧ d.classBacked = v.truthy) := by
  rcases h with ⟨factory, hf, hret⟩ | ⟨hf, hsyn, hret⟩
  · obtain ⟨cls, object, args, hcls, h1, h2, rfl⟩ :=
      getFactoryDefinition_shape w st service factory d hret
    refine ⟨fun hboth => ?_, fun factory1 hf1 => ?_, fun hnone => ?_⟩
    · have hc := hboth.1
      simp [Definition.classBacked, Definition.new, JSVal.truthy] at hc
    · have heq : factory1 = factory := by
        rw [hf] at hf1
        exact (Option.some.inj hf1).symm
      subst heq
      exact ⟨rfl, cls, object, hcls, rfl, h1, h2, rfl⟩
    · rw [hf] at hnone
      exact absurd hnone (by simp)
  · obtain ⟨object, P, props, cs, hobj, _, rfl⟩ := getDefinition_shape w st service d hsyn hret
    refine ⟨fun hboth => ?_, fun factory1 hf1 => ?_, fun _ => ⟨rfl, object, hobj, rfl, rfl⟩⟩
    · have h2 := hboth.2
      simp [Definition.factoryBacked, Definition.new] at h2
    · rw [hf] at hf1
      exact absurd hf1 (by simp)

/-- Witness for C18: `demoFactoryRecord` declares a factory and a class; its definition
has the factory (a reference and the method `create`) and no class-backed
implementation. -/
theorem C18_implementation_kinds_witness :
    demoFactoryDefinition.classBacked = false ∧ demoFactoryDefinition.factoryBacked = true ∧
    ¬ (demoFactoryDefinition.classBacked = true ∧ demoFactoryDefinition.factoryBacked = true) :=
  ⟨rfl, rfl,
    (C18_implementation_kinds demoWorld demoState demoFactoryRecord demoFactoryDefinition
      (Or.inl ⟨_, rfl, rfl⟩)).1⟩


end FileLoader
